import Mathlib

/-!
# Verification of the mortality-table generator (`mortalite.py`)

Shallow embedding of the core pipeline of `MortalityTableGenerator`:
column matching/renaming (`validate_columns`), table construction
(`create_mortality_table`), the two-pass gap filler
(`_complete_calculations`) and the derived-function calculator
(`_add_life_table_functions`).

Conventions of the embedding:
* a pandas cell that may hold NaN ("absent") is `Option ℚ`; exact rational
  arithmetic stands in for IEEE floats;
* a data frame row is `Row` (canonical fields age/lx/qx/dx), a fully
  cleaned output row is `OutRow` (all eight columns, NaN/inf replaced by 0
  as the source's `replace`/`fillna(0)` does);
* the in-place row updates of the Python loops become functional updates:
  each loop body writes only row `i`, reading row `i` (as already updated
  inside the body) and row `i-1` (as updated by earlier iterations), which
  is exactly what `List.set` with the chained `stepA/stepB/stepC` row
  update captures;
* the source indexes `df.iloc[0]` unconditionally, so a zero-row frame
  raises; the embedding maps the empty list to the empty list, a case no
  claim depends on.
-/

/-- A normalized data row: canonical fields, `none` is pandas NaN. -/
structure Row where
  age : Option ℚ
  lx : Option ℚ
  qx : Option ℚ
  dx : Option ℚ
deriving DecidableEq, Repr, Inhabited

/-- A fully derived output row, after `replace([inf,-inf], nan)` and
`fillna(0)`: every column is a plain rational. -/
structure OutRow where
  age : ℚ
  lx : ℚ
  qx : ℚ
  dx : ℚ
  px : ℚ
  Lx : ℚ
  Tx : ℚ
  ex : ℚ
deriving DecidableEq, Repr, Inhabited

/-- Raw input table: column labels (already lower-cased and stripped by
`read_excel_data`) and positional rows of optional cells. -/
structure InputTable where
  labels : List String
  rows : List (List (Option ℚ))
deriving DecidableEq, Repr

/-- The failure surfaced by `create_mortality_table` when
`validate_columns` returns `False` (spec: `MissingRequiredColumn{field}`). -/
inductive TableError where
  | MissingRequiredColumn : String → TableError
deriving DecidableEq, Repr

instance {ε α : Type} [DecidableEq ε] [DecidableEq α] : DecidableEq (Except ε α) := fun x y =>
  match x, y with
  | .ok a, .ok b => if h : a = b then isTrue (by rw [h]) else isFalse (by simp [h])
  | .error a, .error b => if h : a = b then isTrue (by rw [h]) else isFalse (by simp [h])
  | .ok _, .error _ => isFalse (by simp)
  | .error _, .ok _ => isFalse (by simp)

/-- Synonyms accepted for the age column (`column_mapping['yaş']`). -/
def ageSyns : List String := ["yas", "age", "yaş", "x"]

/-- Synonyms accepted for the lx column (`column_mapping['lx']`). -/
def lxSyns : List String := ["lx", "l(x)", "survivors"]

/-- Synonyms accepted for the qx column (`column_mapping['qx']`). -/
def qxSyns : List String := ["qx", "q(x)", "mortality_rate"]

/-- Synonyms accepted for the dx column (`column_mapping['dx']`). -/
def dxSyns : List String := ["dx", "d(x)", "deaths"]

/-- `for alt in alternatives: if alt in self.data.columns` — the first
synonym (in synonym-list order) present among the labels. -/
def matchColumn (labels : List String) (syns : List String) : Option String :=
  syns.find? (fun s => labels.contains s)

/-- Position of the matched source column among the labels. -/
def colIdx (labels : List String) (syns : List String) : Option Nat :=
  (matchColumn labels syns).bind (fun lab => labels.findIdx? (fun l => l == lab))

/-- Read the cell of a positional row at an optional column index;
an unmatched column reads as NaN (the `df['lx'] = np.nan` default). -/
def cellAt (cells : List (Option ℚ)) : Option Nat → Option ℚ
  | some i => (cells[i]?).join
  | none => none

/-- Build the canonical row for one raw positional row. -/
def mkRow (labels : List String) (cells : List (Option ℚ)) : Row where
  age := cellAt cells (colIdx labels ageSyns)
  lx := cellAt cells (colIdx labels lxSyns)
  qx := cellAt cells (colIdx labels qxSyns)
  dx := cellAt cells (colIdx labels dxSyns)

/-- `validate_columns` as a row normalizer: reject when no age or no qx
synonym matches (in that order, as the source checks `yaş` before `qx`),
otherwise produce the canonical rows; unmatched lx/dx cells are absent. -/
def normalizeRows (t : InputTable) : Except TableError (List Row) :=
  match matchColumn t.labels ageSyns with
  | none => .error (.MissingRequiredColumn "yaş")
  | some _ =>
    match matchColumn t.labels qxSyns with
    | none => .error (.MissingRequiredColumn "qx")
    | some _ => .ok (t.rows.map (mkRow t.labels))

/-- The in-place rename performed at the end of `validate_columns`
(`self.data.rename(columns=rename_dict, inplace=True)`): a matched source
label becomes its canonical name, any other label is untouched. -/
def renameLabel (labels : List String) (l : String) : String :=
  if matchColumn labels ageSyns = some l then "yaş"
  else if matchColumn labels lxSyns = some l then "lx"
  else if matchColumn labels qxSyns = some l then "qx"
  else if matchColumn labels dxSyns = some l then "dx"
  else l

/-- State of the stored input table (`self.data`) after `validate_columns`
returns: on success its columns have been renamed in place, on failure the
method returned before the rename. Cell values are never written. -/
def validate_columns_post (t : InputTable) : InputTable :=
  match matchColumn t.labels ageSyns, matchColumn t.labels qxSyns with
  | some _, some _ => { t with labels := t.labels.map (renameLabel t.labels) }
  | _, _ => t

/-- Comparison used by `sort_values('yaş')`: ascending ages, NaN last. -/
def ageLe (a b : Row) : Bool :=
  match a.age, b.age with
  | some x, some y => decide (x ≤ y)
  | some _, none => true
  | none, _ => false

/-- Insert a row into an age-sorted list. -/
def insertByAge (r : Row) : List Row → List Row
  | [] => [r]
  | x :: xs => if ageLe r x then r :: x :: xs else x :: insertByAge r xs

/-- `df.sort_values('yaş').reset_index(drop=True)` as an insertion sort. -/
def sortByAge : List Row → List Row
  | [] => []
  | r :: rs => insertByAge r (sortByAge rs)

/-- `df.iloc[i]` (the loops only index rows that exist). -/
def pyGet (df : List Row) (i : Nat) : Row := (df[i]?).getD default

/-- First-pass step (a): `lx[i] = max(0, lx[i-1] - dx[i-1])` when `lx[i]`
is NaN and both predecessor cells are present; no predecessor at `i = 0`. -/
def stepA (p? : Option Row) (r : Row) : Row :=
  match p?, r.lx with
  | some p, none =>
    match p.lx, p.dx with
    | some pl, some pd => { r with lx := some (max 0 (pl - pd)) }
    | _, _ => r
  | _, _ => r

/-- First-pass step (b): `dx[i] = lx[i] * qx[i]` when `dx[i]` is NaN and
`qx[i]`, `lx[i]` are present (`lx[i]` as just updated by step (a)). -/
def stepB (r : Row) : Row :=
  match r.dx, r.qx, r.lx with
  | none, some q, some l => { r with dx := some (l * q) }
  | _, _, _ => r

/-- First-pass step (c): when `qx[i]` is NaN and `dx[i]`, `lx[i]` are
present, `qx[i] = min(1.0, dx[i]/lx[i])` if `lx[i] > 0` else `0.0`. -/
def stepC (r : Row) : Row :=
  match r.qx, r.dx, r.lx with
  | none, some d, some l => { r with qx := some (if 0 < l then min 1 (d / l) else 0) }
  | _, _, _ => r

/-- The whole first-pass loop body at one row: steps (a), (b), (c) in
order, each seeing the updates of the previous one. -/
def step1Row (p? : Option Row) (r : Row) : Row := stepC (stepB (stepA p? r))

/-- Second-pass loop body at one row:
`lx[i] = max(0, lx[i-1] * (1 - qx[i-1]))` when `lx[i]` is still NaN. -/
def step2Row (p? : Option Row) (r : Row) : Row :=
  match r.lx with
  | none =>
    match p? with
    | some p =>
      match p.lx, p.qx with
      | some pl, some pq => { r with lx := some (max 0 (pl * (1 - pq))) }
      | _, _ => r
    | none => r
  | some _ => r

/-- One iteration of the first Python loop: write row `i` from its own
cells and row `i-1` (already updated by the previous iterations). -/
def pass1Step (df : List Row) (i : Nat) : List Row :=
  df.set i (step1Row (if i = 0 then none else df[i - 1]?) (pyGet df i))

/-- One iteration of the second Python loop (only run for `i ≥ 1`). -/
def pass2Step (df : List Row) (i : Nat) : List Row :=
  df.set i (step2Row (df[i - 1]?) (pyGet df i))

/-- Helper for `pyRange`: `n` indices counting up from `s`. -/
def rangeGo : Nat → Nat → List Nat
  | 0, _ => []
  | n + 1, s => s :: rangeGo n (s + 1)

/-- Python's `range(s, e)`. -/
def pyRange (s e : Nat) : List Nat := rangeGo (e - s) s

/-- `_complete_calculations`: seed `lx[0]` with the radix when absent,
run the first pass over `range(len(df))`, then the corrective second pass
over `range(1, len(df))`. -/
def _complete_calculations (radix : ℚ) (df : List Row) : List Row :=
  let df0 := if (pyGet df 0).lx = none then df.set 0 { pyGet df 0 with lx := some radix } else df
  let df1 := (pyRange 0 df0.length).foldl pass1Step df0
  (pyRange 1 df1.length).foldl pass2Step df1

/-- Spec reading of the first forward pass: process the rows in order,
each step seeing the predecessor row as already updated in this pass. -/
def specPass1 : Option Row → List Row → List Row
  | _, [] => []
  | p?, r :: rs =>
    let r' := step1Row p? r
    r' :: specPass1 (some r') rs

/-- Spec reading of the second forward pass. -/
def specPass2 : Option Row → List Row → List Row
  | _, [] => []
  | p?, r :: rs =>
    let r' := step2Row p? r
    r' :: specPass2 (some r') rs

/-- Modelled from the spec's words (§4.2 of the specification, used to
check claim C1 by refinement): seed the first row's lx with the radix when
absent, then the two forward passes as structural recursion. -/
def completerSpec (radix : ℚ) : List Row → List Row
  | [] => []
  | r :: rs =>
    specPass2 none (specPass1 none ((if r.lx = none then { r with lx := some radix } else r) :: rs))

/-- `Lx = lx - dx/2`, NaN when either operand is NaN. -/
def LxOf (r : Row) : Option ℚ :=
  match r.lx, r.dx with
  | some l, some d => some (l - d / 2)
  | _, _ => none

/-- pandas `Series.cumsum()` with its default `skipna=True`: NaN entries
stay NaN, the running total skips them. -/
def cumsumSkip (a : ℚ) : List (Option ℚ) → List (Option ℚ)
  | [] => []
  | none :: rest => none :: cumsumSkip a rest
  | some v :: rest => some (a + v) :: cumsumSkip (a + v) rest

/-- Total of the present entries of a list of optional values. -/
def sumSome : List (Option ℚ) → ℚ
  | [] => 0
  | none :: rest => sumSome rest
  | some v :: rest => v + sumSome rest

/-- `df['Lx'][::-1].cumsum()[::-1]`: the reverse cumulative sum of Lx. -/
def TxList (rows : List Row) : List (Option ℚ) :=
  (cumsumSkip 0 ((rows.map LxOf).reverse)).reverse

/-- One output row of `_add_life_table_functions`, given its Tx cell:
`px = 1 - qx`, `Lx = lx - dx/2`, `ex = np.where(lx > 0, Tx/lx, 0)`,
followed by the `replace([inf,-inf], nan)`/`fillna(0)` cleanup (`getD 0`;
exact rationals produce no infinities at the guarded division). -/
def deriveRow (r : Row) (tx : Option ℚ) : OutRow where
  age := r.age.getD 0
  lx := r.lx.getD 0
  qx := r.qx.getD 0
  dx := r.dx.getD 0
  px := (r.qx.map (fun q => 1 - q)).getD 0
  Lx := (LxOf r).getD 0
  Tx := tx.getD 0
  ex :=
    match r.lx with
    | some l => if 0 < l then (tx.map (fun t => t / l)).getD 0 else 0
    | none => 0

/-- `_add_life_table_functions` on a completed table. -/
def _add_life_table_functions (rows : List Row) : List OutRow :=
  List.zipWith deriveRow rows (TxList rows)

/-- `create_mortality_table`: validate/normalize, copy, sort by age,
complete, derive. -/
def create_mortality_table (radix : ℚ) (t : InputTable) : Except TableError (List OutRow) :=
  (normalizeRows t).map
    (fun rows => _add_life_table_functions (_complete_calculations radix (sortByAge rows)))

/-- Feed an already produced output table back to the calculator (its
lx/qx/dx/age columns are all populated after the cleanup). -/
def toRow (o : OutRow) : Row where
  age := some o.age
  lx := some o.lx
  qx := some o.qx
  dx := some o.dx

/-- A row with its age cell replaced by the cleaned-up age value. -/
def cleanRow (r : Row) : Row := { r with age := some (r.age.getD 0) }

/-! ## Equivalence of the index-based loops with the structural passes -/

theorem nth_append_len {α : Type} (l : List α) (x : α) (xs : List α) :
    (l ++ x :: xs)[l.length]? = some x := by
  induction l with
  | nil => simp
  | cons a as ih => simpa using ih

theorem set_append_len {α : Type} (l : List α) (x b : α) (xs : List α) :
    (l ++ x :: xs).set l.length b = l ++ b :: xs := by
  induction l with
  | nil => rfl
  | cons a as ih => simp [ih]

theorem specPass1_length (p? : Option Row) (rows : List Row) :
    (specPass1 p? rows).length = rows.length := by
  induction rows generalizing p? with
  | nil => rfl
  | cons r rs ih => simp [specPass1, ih]

theorem specPass2_length (p? : Option Row) (rows : List Row) :
    (specPass2 p? rows).length = rows.length := by
  induction rows generalizing p? with
  | nil => rfl
  | cons r rs ih => simp [specPass2, ih]

theorem step2Row_none (r : Row) : step2Row none r = r := by
  unfold step2Row
  cases r.lx <;> rfl

theorem pass1Step_mid (l1 : List Row) (p a : Row) (l2 : List Row) :
    pass1Step (l1 ++ p :: a :: l2) (l1.length + 1) = l1 ++ p :: step1Row (some p) a :: l2 := by
  have h1 : (l1 ++ p :: a :: l2)[l1.length]? = some p := nth_append_len l1 p (a :: l2)
  have h2 : (l1 ++ p :: a :: l2)[l1.length + 1]? = some a := by
    have h := nth_append_len (l1 ++ [p]) a l2
    simpa using h
  have h3 : (l1 ++ p :: a :: l2).set (l1.length + 1) (step1Row (some p) a) =
      l1 ++ p :: step1Row (some p) a :: l2 := by
    have h := set_append_len (l1 ++ [p]) a (step1Row (some p) a) l2
    simpa using h
  unfold pass1Step pyGet
  rw [if_neg (by omega : ¬ l1.length + 1 = 0), Nat.add_sub_cancel, h1, h2]
  simpa using h3

theorem pass2Step_mid (l1 : List Row) (p a : Row) (l2 : List Row) :
    pass2Step (l1 ++ p :: a :: l2) (l1.length + 1) = l1 ++ p :: step2Row (some p) a :: l2 := by
  have h1 : (l1 ++ p :: a :: l2)[l1.length]? = some p := nth_append_len l1 p (a :: l2)
  have h2 : (l1 ++ p :: a :: l2)[l1.length + 1]? = some a := by
    have h := nth_append_len (l1 ++ [p]) a l2
    simpa using h
  have h3 : (l1 ++ p :: a :: l2).set (l1.length + 1) (step2Row (some p) a) =
      l1 ++ p :: step2Row (some p) a :: l2 := by
    have h := set_append_len (l1 ++ [p]) a (step2Row (some p) a) l2
    simpa using h
  unfold pass2Step pyGet
  rw [Nat.add_sub_cancel, h1, h2]
  simpa using h3

theorem foldl_pass1_go (todo : List Row) : ∀ (done : List Row) (p : Row),
    (rangeGo todo.length (done.length + 1)).foldl pass1Step (done ++ p :: todo) =
      done ++ p :: specPass1 (some p) todo := by
  induction todo with
  | nil => intro done p; simp [rangeGo, specPass1]
  | cons r rs ih =>
    intro done p
    show (rangeGo (rs.length + 1) (done.length + 1)).foldl pass1Step _ = _
    rw [rangeGo, List.foldl_cons, pass1Step_mid]
    have h := ih (done ++ [p]) (step1Row (some p) r)
    simpa [specPass1] using h

theorem foldl_pass2_go (todo : List Row) : ∀ (done : List Row) (p : Row),
    (rangeGo todo.length (done.length + 1)).foldl pass2Step (done ++ p :: todo) =
      done ++ p :: specPass2 (some p) todo := by
  induction todo with
  | nil => intro done p; simp [rangeGo, specPass2]
  | cons r rs ih =>
    intro done p
    show (rangeGo (rs.length + 1) (done.length + 1)).foldl pass2Step _ = _
    rw [rangeGo, List.foldl_cons, pass2Step_mid]
    have h := ih (done ++ [p]) (step2Row (some p) r)
    simpa [specPass2] using h

theorem foldl_pass1_eq (df : List Row) :
    (pyRange 0 df.length).foldl pass1Step df = specPass1 none df := by
  cases df with
  | nil => rfl
  | cons r rs =>
    show (pyRange 0 (rs.length + 1)).foldl pass1Step (r :: rs) = _
    have hr : pyRange 0 (rs.length + 1) = 0 :: rangeGo rs.length 1 := by
      simp [pyRange, rangeGo]
    have hstep : pass1Step (r :: rs) 0 = step1Row none r :: rs := by
      unfold pass1Step pyGet
      simp
    rw [hr, List.foldl_cons, hstep]
    have h := foldl_pass1_go rs [] (step1Row none r)
    simpa [specPass1] using h

theorem foldl_pass2_eq (df : List Row) :
    (pyRange 1 df.length).foldl pass2Step df = specPass2 none df := by
  cases df with
  | nil => rfl
  | cons r rs =>
    show (pyRange 1 (rs.length + 1)).foldl pass2Step (r :: rs) = _
    have hr : pyRange 1 (rs.length + 1) = rangeGo rs.length 1 := by
      simp [pyRange]
    rw [hr]
    have h := foldl_pass2_go rs [] r
    simpa [specPass2, step2Row_none] using h

theorem passes_eq (df0 : List Row) :
    (pyRange 1 ((pyRange 0 df0.length).foldl pass1Step df0).length).foldl pass2Step
      ((pyRange 0 df0.length).foldl pass1Step df0) = specPass2 none (specPass1 none df0) := by
  rw [foldl_pass1_eq]
  exact foldl_pass2_eq (specPass1 none df0)

/-- The index-based completer and its structural two-pass reading agree. -/
theorem complete_eq_spec (radix : ℚ) (df : List Row) :
    _complete_calculations radix df = completerSpec radix df := by
  cases df with
  | nil => rfl
  | cons r rs =>
    have hget : pyGet (r :: rs) 0 = r := by simp [pyGet]
    have hspec : completerSpec radix (r :: rs) =
        specPass2 none (specPass1 none ((if r.lx = none then { r with lx := some radix }
          else r) :: rs)) := rfl
    unfold _complete_calculations
    rw [hget, hspec]
    by_cases hlx : r.lx = none
    · rw [if_pos hlx, if_pos hlx]
      exact passes_eq ({ r with lx := some radix } :: rs)
    · rw [if_neg hlx, if_neg hlx]
      exact passes_eq (r :: rs)

/-! ## Sorting, Tx and calculator access lemmas -/

theorem insertByAge_perm (r : Row) (l : List Row) : (insertByAge r l).Perm (r :: l) := by
  induction l with
  | nil => exact List.Perm.refl _
  | cons x xs ih =>
    unfold insertByAge
    by_cases h : ageLe r x
    · simp [h]
    · simp only [h, if_neg, Bool.false_eq_true, not_false_iff]
      exact (ih.cons x).trans (List.Perm.swap r x xs)

theorem sortByAge_perm (l : List Row) : (sortByAge l).Perm l := by
  induction l with
  | nil => exact List.Perm.refl _
  | cons r rs ih => exact (insertByAge_perm r (sortByAge rs)).trans (ih.cons r)

theorem sortByAge_length (l : List Row) : (sortByAge l).length = l.length :=
  (sortByAge_perm l).length_eq

theorem sumSome_append (l1 l2 : List (Option ℚ)) :
    sumSome (l1 ++ l2) = sumSome l1 + sumSome l2 := by
  induction l1 with
  | nil => simp [sumSome]
  | cons x xs ih => rcases x with _ | v <;> simp [sumSome, ih] <;> ring

theorem sumSome_reverse (l : List (Option ℚ)) : sumSome l.reverse = sumSome l := by
  induction l with
  | nil => rfl
  | cons x xs ih =>
    rcases x with _ | v <;> simp [sumSome, sumSome_append, ih] <;> ring

theorem cumsumSkip_append (l1 l2 : List (Option ℚ)) : ∀ a : ℚ,
    cumsumSkip a (l1 ++ l2) = cumsumSkip a l1 ++ cumsumSkip (a + sumSome l1) l2 := by
  induction l1 with
  | nil => intro a; simp [cumsumSkip, sumSome]
  | cons x xs ih =>
    intro a
    rcases x with _ | v
    · simp [cumsumSkip, sumSome, ih]
    · have hs : a + sumSome (some v :: xs) = (a + v) + sumSome xs := by
        show a + (v + sumSome xs) = a + v + sumSome xs
        ring
      calc cumsumSkip a ((some v :: xs) ++ l2)
          = some (a + v) :: cumsumSkip (a + v) (xs ++ l2) := rfl
        _ = some (a + v) :: (cumsumSkip (a + v) xs ++ cumsumSkip ((a + v) + sumSome xs) l2) := by
            rw [ih]
        _ = (some (a + v) :: cumsumSkip (a + v) xs) ++
              cumsumSkip (a + sumSome (some v :: xs)) l2 := by rw [hs]; rfl
        _ = cumsumSkip a (some v :: xs) ++ cumsumSkip (a + sumSome (some v :: xs)) l2 := rfl

theorem cumsumSkip_single (a : ℚ) (x : Option ℚ) :
    cumsumSkip a [x] = [x.map (fun v => a + v)] := by
  rcases x with _ | v <;> rfl

theorem TxList_cons (r : Row) (rs : List Row) :
    TxList (r :: rs) =
      (LxOf r).map (fun v => sumSome (rs.map LxOf) + v) :: TxList rs := by
  unfold TxList
  rw [List.map_cons, List.reverse_cons, cumsumSkip_append, cumsumSkip_single,
    List.reverse_append]
  simp [sumSome_reverse]

theorem TxList_length (rows : List Row) : (TxList rows).length = rows.length := by
  induction rows with
  | nil => rfl
  | cons r rs ih => rw [TxList_cons]; simp [ih]

theorem derive_cons (r : Row) (rs : List Row) :
    _add_life_table_functions (r :: rs) =
      deriveRow r ((LxOf r).map (fun v => sumSome (rs.map LxOf) + v)) ::
        _add_life_table_functions rs := by
  unfold _add_life_table_functions
  rw [TxList_cons]
  rfl

theorem derive_length (rows : List Row) :
    (_add_life_table_functions rows).length = rows.length := by
  unfold _add_life_table_functions
  rw [List.length_zipWith, TxList_length, Nat.min_self]

theorem nth_zipWith {α β γ : Type} (f : α → β → γ) (as : List α) (bs : List β) :
    ∀ i : Nat, (List.zipWith f as bs)[i]? =
      match as[i]?, bs[i]? with
      | some a, some b => some (f a b)
      | _, _ => none := by
  induction as generalizing bs with
  | nil => intro i; simp
  | cons a as ih =>
    intro i
    cases bs with
    | nil => simp
    | cons b bs =>
      cases i with
      | zero => simp
      | succ j => simpa using ih bs j

theorem derive_nth (rows : List Row) (i : Nat) (o : OutRow)
    (h : (_add_life_table_functions rows)[i]? = some o) :
    ∃ r tx, rows[i]? = some r ∧ (TxList rows)[i]? = some tx ∧ o = deriveRow r tx := by
  unfold _add_life_table_functions at h
  rw [nth_zipWith] at h
  rcases hr : rows[i]? with _ | r <;> rcases ht : (TxList rows)[i]? with _ | tx <;>
      rw [hr, ht] at h <;> simp only [] at h
  · exact absurd h (by simp)
  · exact absurd h (by simp)
  · exact absurd h (by simp)
  · exact ⟨r, tx, rfl, rfl, by injection h with h2; exact h2.symm⟩

theorem derive_map_lx (rows : List Row) :
    (_add_life_table_functions rows).map OutRow.lx = rows.map (fun r => r.lx.getD 0) := by
  induction rows with
  | nil => rfl
  | cons r rs ih => rw [derive_cons]; simp [deriveRow, ih]

theorem derive_map_age (rows : List Row) :
    (_add_life_table_functions rows).map OutRow.age = rows.map (fun r => r.age.getD 0) := by
  induction rows with
  | nil => rfl
  | cons r rs ih => rw [derive_cons]; simp [deriveRow, ih]

/-! ## The completer never overwrites supplied cells -/

/-- Rowwise frame relation: the age is kept and every present cell of `r`
is still present with the same value in `r'`. -/
def Keeps (r r' : Row) : Prop :=
  r'.age = r.age ∧ (∀ v, r.lx = some v → r'.lx = some v) ∧
    (∀ v, r.qx = some v → r'.qx = some v) ∧ (∀ v, r.dx = some v → r'.dx = some v)

theorem Keeps_refl (r : Row) : Keeps r r := ⟨rfl, fun _ h => h, fun _ h => h, fun _ h => h⟩

theorem Keeps_trans {a b c : Row} (h1 : Keeps a b) (h2 : Keeps b c) : Keeps a c :=
  ⟨h2.1.trans h1.1, fun v hv => h2.2.1 v (h1.2.1 v hv),
   fun v hv => h2.2.2.1 v (h1.2.2.1 v hv), fun v hv => h2.2.2.2 v (h1.2.2.2 v hv)⟩

theorem stepA_ext (p? : Option Row) (r : Row) : Keeps r (stepA p? r) := by
  obtain ⟨ra, rl, rq, rd⟩ := r
  rcases p? with _ | ⟨pa, pl, pq, pd⟩
  · exact Keeps_refl _
  · rcases rl with _ | v
    · rcases pl with _ | pl' <;> rcases pd with _ | pd' <;> simp [stepA, Keeps]
    · exact Keeps_refl _

theorem stepB_ext (r : Row) : Keeps r (stepB r) := by
  obtain ⟨ra, rl, rq, rd⟩ := r
  rcases rd with _ | d
  · rcases rq with _ | q <;> rcases rl with _ | l <;> simp [stepB, Keeps]
  · exact Keeps_refl _

theorem stepC_ext (r : Row) : Keeps r (stepC r) := by
  obtain ⟨ra, rl, rq, rd⟩ := r
  rcases rq with _ | q
  · rcases rd with _ | d <;> rcases rl with _ | l <;> simp [stepC, Keeps]
  · exact Keeps_refl _

theorem step1Row_ext (p? : Option Row) (r : Row) : Keeps r (step1Row p? r) :=
  Keeps_trans (stepA_ext p? r) (Keeps_trans (stepB_ext _) (stepC_ext _))

theorem step2Row_ext (p? : Option Row) (r : Row) : Keeps r (step2Row p? r) := by
  obtain ⟨ra, rl, rq, rd⟩ := r
  rcases rl with _ | v
  · rcases p? with _ | ⟨pa, pl, pq, pd⟩
    · exact Keeps_refl _
    · rcases pl with _ | pl' <;> rcases pq with _ | pq' <;> simp [step2Row, Keeps]
  · exact Keeps_refl _

theorem specPass1_ext (rows : List Row) : ∀ (p? : Option Row) (i : Nat) (r : Row),
    rows[i]? = some r → ∃ r', (specPass1 p? rows)[i]? = some r' ∧ Keeps r r' := by
  induction rows with
  | nil => intro p? i r h; simp at h
  | cons a as ih =>
    intro p? i r h
    cases i with
    | zero =>
      simp only [List.getElem?_cons_zero, Option.some.injEq] at h
      subst h
      exact ⟨step1Row p? a, by simp [specPass1], step1Row_ext p? a⟩
    | succ j =>
      simp only [List.getElem?_cons_succ] at h
      obtain ⟨r', hr', he⟩ := ih (some (step1Row p? a)) j r h
      exact ⟨r', by simpa [specPass1] using hr', he⟩

theorem specPass2_ext (rows : List Row) : ∀ (p? : Option Row) (i : Nat) (r : Row),
    rows[i]? = some r → ∃ r', (specPass2 p? rows)[i]? = some r' ∧ Keeps r r' := by
  induction rows with
  | nil => intro p? i r h; simp at h
  | cons a as ih =>
    intro p? i r h
    cases i with
    | zero =>
      simp only [List.getElem?_cons_zero, Option.some.injEq] at h
      subst h
      exact ⟨step2Row p? a, by simp [specPass2], step2Row_ext p? a⟩
    | succ j =>
      simp only [List.getElem?_cons_succ] at h
      obtain ⟨r', hr', he⟩ := ih (some (step2Row p? a)) j r h
      exact ⟨r', by simpa [specPass2] using hr', he⟩

theorem completerSpec_ext (radix : ℚ) (rows : List Row) (i : Nat) (r : Row)
    (h : rows[i]? = some r) :
    ∃ r', (completerSpec radix rows)[i]? = some r' ∧ Keeps r r' := by
  cases rows with
  | nil => simp at h
  | cons a as =>
    have hstep : completerSpec radix (a :: as) =
        specPass2 none (specPass1 none ((if a.lx = none then { a with lx := some radix }
          else a) :: as)) := rfl
    have hhead : ∀ (j : Nat) (s : Row), (a :: as)[j]? = some s →
        ∃ s', ((if a.lx = none then { a with lx := some radix } else a) :: as)[j]? = some s' ∧
          Keeps s s' := by
      intro j s hs
      cases j with
      | zero =>
        simp only [List.getElem?_cons_zero, Option.some.injEq] at hs
        subst hs
        by_cases hl : a.lx = none
        · refine ⟨{ a with lx := some radix }, by simp [hl], rfl, ?_, fun _ hv => hv,
            fun _ hv => hv⟩
          intro v hv
          rw [hl] at hv
          cases hv
        · exact ⟨a, by simp [hl], Keeps_refl a⟩
      | succ j => exact ⟨s, by simpa using hs, Keeps_refl s⟩
    obtain ⟨s1, hs1, he1⟩ := hhead i r h
    obtain ⟨s2, hs2, he2⟩ := specPass1_ext _ none i s1 hs1
    obtain ⟨s3, hs3, he3⟩ := specPass2_ext _ none i s2 hs2
    exact ⟨s3, by rw [hstep]; exact hs3, Keeps_trans he1 (Keeps_trans he2 he3)⟩

/-- `_complete_calculations` never overwrites a supplied cell. -/
theorem complete_ext (radix : ℚ) (rows : List Row) (i : Nat) (r : Row)
    (h : rows[i]? = some r) :
    ∃ r', (_complete_calculations radix rows)[i]? = some r' ∧ Keeps r r' := by
  rw [complete_eq_spec]
  exact completerSpec_ext radix rows i r h

theorem completerSpec_length (radix : ℚ) (rows : List Row) :
    (completerSpec radix rows).length = rows.length := by
  cases rows with
  | nil => rfl
  | cons a as =>
    show (specPass2 none (specPass1 none (_ :: as))).length = as.length + 1
    rw [specPass2_length, specPass1_length]
    rfl

theorem complete_length (radix : ℚ) (rows : List Row) :
    (_complete_calculations radix rows).length = rows.length := by
  rw [complete_eq_spec]
  exact completerSpec_length radix rows

/-! ## Row-level facts about the pass steps -/

theorem stepA_qx (p? : Option Row) (r : Row) : (stepA p? r).qx = r.qx := by
  obtain ⟨ra, rl, rq, rd⟩ := r
  rcases p? with _ | ⟨pa, pl, pq, pd⟩
  · rfl
  · rcases rl with _ | v
    · rcases pl with _ | pl' <;> rcases pd with _ | pd' <;> simp [stepA]
    · rfl

theorem stepA_dx (p? : Option Row) (r : Row) : (stepA p? r).dx = r.dx := by
  obtain ⟨ra, rl, rq, rd⟩ := r
  rcases p? with _ | ⟨pa, pl, pq, pd⟩
  · rfl
  · rcases rl with _ | v
    · rcases pl with _ | pl' <;> rcases pd with _ | pd' <;> simp [stepA]
    · rfl

theorem stepB_lx (r : Row) : (stepB r).lx = r.lx := by
  obtain ⟨ra, rl, rq, rd⟩ := r
  rcases rd with _ | d
  · rcases rq with _ | q <;> rcases rl with _ | l <;> simp [stepB]
  · rfl

theorem stepB_qx (r : Row) : (stepB r).qx = r.qx := by
  obtain ⟨ra, rl, rq, rd⟩ := r
  rcases rd with _ | d
  · rcases rq with _ | q <;> rcases rl with _ | l <;> simp [stepB]
  · rfl

theorem stepB_of_qx_none (r : Row) (h : r.qx = none) : stepB r = r := by
  obtain ⟨ra, rl, rq, rd⟩ := r
  cases h
  rcases rd with _ | d <;> rfl

theorem stepC_lx (r : Row) : (stepC r).lx = r.lx := by
  obtain ⟨ra, rl, rq, rd⟩ := r
  rcases rq with _ | q
  · rcases rd with _ | d <;> rcases rl with _ | l <;> simp [stepC]
  · rfl

theorem stepC_dx (r : Row) : (stepC r).dx = r.dx := by
  obtain ⟨ra, rl, rq, rd⟩ := r
  rcases rq with _ | q
  · rcases rd with _ | d <;> rcases rl with _ | l <;> simp [stepC]
  · rfl

theorem stepC_of_qx_some (r : Row) (q : ℚ) (h : r.qx = some q) : stepC r = r := by
  obtain ⟨ra, rl, rq, rd⟩ := r
  cases h
  rfl

theorem step1Row_lx (p? : Option Row) (r : Row) : (step1Row p? r).lx = (stepA p? r).lx := by
  unfold step1Row
  rw [stepC_lx, stepB_lx]

theorem step1Row_qx_of_some (p? : Option Row) (r : Row) (q : ℚ) (h : r.qx = some q) :
    (step1Row p? r).qx = some q := by
  unfold step1Row
  rw [stepC_of_qx_some _ q (by rw [stepB_qx, stepA_qx]; exact h), stepB_qx, stepA_qx]
  exact h

theorem step1Row_dx_of_qx_none (p? : Option Row) (r : Row) (h : r.qx = none) :
    (step1Row p? r).dx = r.dx := by
  unfold step1Row
  rw [stepC_dx, stepB_of_qx_none _ (by rw [stepA_qx]; exact h), stepA_dx]

theorem step2Row_qx (p? : Option Row) (r : Row) : (step2Row p? r).qx = r.qx := by
  obtain ⟨ra, rl, rq, rd⟩ := r
  rcases rl with _ | v
  · rcases p? with _ | ⟨pa, pl, pq, pd⟩
    · rfl
    · rcases pl with _ | pl' <;> rcases pq with _ | pq' <;> simp [step2Row]
  · rfl

theorem step2Row_dx (p? : Option Row) (r : Row) : (step2Row p? r).dx = r.dx := by
  obtain ⟨ra, rl, rq, rd⟩ := r
  rcases rl with _ | v
  · rcases p? with _ | ⟨pa, pl, pq, pd⟩
    · rfl
    · rcases pl with _ | pl' <;> rcases pq with _ | pq' <;> simp [step2Row]
  · rfl

theorem step2Row_of_lx_some (p? : Option Row) (r : Row) (v : ℚ) (h : r.lx = some v) :
    step2Row p? r = r := by
  obtain ⟨ra, rl, rq, rd⟩ := r
  cases h
  rfl

/-- Every row of the first pass is the step image of an input row. -/
theorem specPass1_mem (rows : List Row) : ∀ (p? : Option Row) (x : Row),
    x ∈ specPass1 p? rows → ∃ q? r, r ∈ rows ∧ x = step1Row q? r := by
  induction rows with
  | nil => intro p? x h; simp [specPass1] at h
  | cons a as ih =>
    intro p? x h
    rw [specPass1] at h
    rcases List.mem_cons.mp h with h1 | h2
    · exact ⟨p?, a, List.mem_cons_self a as, h1⟩
    · obtain ⟨q?, r, hr, hx⟩ := ih _ x h2
      exact ⟨q?, r, List.mem_cons_of_mem a hr, hx⟩

/-- Every row of the second pass is the step image of an input row. -/
theorem specPass2_mem (rows : List Row) : ∀ (p? : Option Row) (x : Row),
    x ∈ specPass2 p? rows → ∃ q? r, r ∈ rows ∧ x = step2Row q? r := by
  induction rows with
  | nil => intro p? x h; simp [specPass2] at h
  | cons a as ih =>
    intro p? x h
    rw [specPass2] at h
    rcases List.mem_cons.mp h with h1 | h2
    · exact ⟨p?, a, List.mem_cons_self a as, h1⟩
    · obtain ⟨q?, r, hr, hx⟩ := ih _ x h2
      exact ⟨q?, r, List.mem_cons_of_mem a hr, hx⟩

/-- The value written by step (c) always lies in `[0,1]` when the dx it
divides is non-negative. -/
theorem qx_formula_bounds (d l : ℚ) (hd0 : 0 ≤ d) :
    0 ≤ (if 0 < l then min 1 (d / l) else 0) ∧ (if 0 < l then min 1 (d / l) else 0) ≤ 1 := by
  by_cases hl : 0 < l
  · rw [if_pos hl]
    exact ⟨le_min zero_le_one (div_nonneg hd0 hl.le), min_le_left 1 _⟩
  · rw [if_neg hl]
    exact ⟨le_refl 0, zero_le_one⟩

theorem stepC_qx_bounds (y : Row) (hqn : y.qx = none)
    (hd : ∀ d, y.dx = some d → 0 ≤ d) :
    ∀ q, (stepC y).qx = some q → 0 ≤ q ∧ q ≤ 1 := by
  obtain ⟨ya, yl, yq, yd⟩ := y
  cases hqn
  intro q hstep
  rcases yd with _ | d <;> rcases yl with _ | l <;> simp only [stepC] at hstep
  · exact absurd hstep (by simp)
  · exact absurd hstep (by simp)
  · exact absurd hstep (by simp)
  · injection hstep with hqq
    subst hqq
    exact qx_formula_bounds d l (hd d rfl)

/-- Step (c) only ever divides a supplied `dx` by a positive `lx`, so the
qx it writes stays in `[0,1]` when the supplied dx is non-negative; a
supplied qx passes through unchanged. -/
theorem step1Row_qx_bounds (p? : Option Row) (r : Row)
    (hq : ∀ q, r.qx = some q → 0 ≤ q ∧ q ≤ 1)
    (hd : ∀ d, r.dx = some d → 0 ≤ d) :
    ∀ q, (step1Row p? r).qx = some q → 0 ≤ q ∧ q ≤ 1 := by
  intro q hstep
  rcases hrq : r.qx with _ | q0
  · have h1 : step1Row p? r = stepC (stepA p? r) := by
      unfold step1Row
      rw [stepB_of_qx_none _ (by rw [stepA_qx]; exact hrq)]
    rw [h1] at hstep
    exact stepC_qx_bounds _ (by rw [stepA_qx]; exact hrq)
      (fun d hdd => hd d (by rw [stepA_dx] at hdd; exact hdd)) q hstep
  · rw [step1Row_qx_of_some p? r q0 hrq] at hstep
    injection hstep with hqq
    subst hqq
    exact hq q0 hrq

/-- qx cells present after the completer lie in `[0,1]` whenever every
supplied qx does and every supplied dx is non-negative. -/
theorem completerSpec_qx_bounds (radix : ℚ) (rows : List Row)
    (hq : ∀ r ∈ rows, ∀ q, r.qx = some q → 0 ≤ q ∧ q ≤ 1)
    (hd : ∀ r ∈ rows, ∀ d, r.dx = some d → 0 ≤ d) :
    ∀ x ∈ completerSpec radix rows, ∀ q, x.qx = some q → 0 ≤ q ∧ q ≤ 1 := by
  cases rows with
  | nil => intro x hx; simp [completerSpec] at hx
  | cons a as =>
    intro x hx q hxq
    have hstep : completerSpec radix (a :: as) =
        specPass2 none (specPass1 none ((if a.lx = none then { a with lx := some radix }
          else a) :: as)) := rfl
    rw [hstep] at hx
    obtain ⟨p2, y, hy, hxy⟩ := specPass2_mem _ _ x hx
    obtain ⟨p1, z, hz, hyz⟩ := specPass1_mem _ _ y hy
    have hz' : ∃ w ∈ a :: as, z.qx = w.qx ∧ z.dx = w.dx := by
      rcases List.mem_cons.mp hz with h1 | h2
      · refine ⟨a, List.mem_cons_self a as, ?_⟩
        by_cases hl : a.lx = none <;> simp [h1, hl]
      · exact ⟨z, List.mem_cons_of_mem a h2, rfl, rfl⟩
    obtain ⟨w, hw, hwq, hwd⟩ := hz'
    rw [hxy, step2Row_qx, hyz] at hxq
    exact step1Row_qx_bounds p1 z
      (fun q' hq' => hq w hw q' (by rw [hwq] at hq'; exact hq'))
      (fun d' hd' => hd w hw d' (by rw [hwd] at hd'; exact hd')) q hxq

/-! ## Monotonicity of lx under the completer -/

/-- All present numeric cells of the row are non-negative. -/
def nnRow (r : Row) : Prop :=
  (∀ v, r.lx = some v → 0 ≤ v) ∧ (∀ v, r.qx = some v → 0 ≤ v) ∧ (∀ v, r.dx = some v → 0 ≤ v)

/-- The `fillna(0)` readings of lx form a non-negative chain that starts
no higher than `c` and never increases. -/
def lxLe (c : ℚ) : List Row → Prop
  | [] => True
  | r :: rs => r.lx.getD 0 ≤ c ∧ 0 ≤ r.lx.getD 0 ∧ lxLe (r.lx.getD 0) rs

theorem lxLe_mono {a b : ℚ} (l : List Row) (h : lxLe a l) (hab : a ≤ b) : lxLe b l := by
  cases l with
  | nil => trivial
  | cons r rs => exact ⟨h.1.trans hab, h.2.1, h.2.2⟩

theorem lxLe_of_none (l : List Row) : ∀ c : ℚ, 0 ≤ c → (∀ r ∈ l, r.lx = none) → lxLe c l := by
  induction l with
  | nil => intro c _ _; trivial
  | cons r rs ih =>
    intro c hc h
    have hr := h r (List.mem_cons_self r rs)
    refine ⟨by rw [hr]; exact hc, by rw [hr]; exact le_refl 0, ?_⟩
    rw [hr]
    exact ih 0 (le_refl 0) (fun x hx => h x (List.mem_cons_of_mem r hx))

theorem stepA_cases (p? : Option Row) (r : Row) :
    stepA p? r = r ∨ ∃ pl pd, stepA p? r = { r with lx := some (max 0 (pl - pd)) } := by
  obtain ⟨ra, rl, rq, rd⟩ := r
  rcases p? with _ | ⟨pa, pl, pq, pd⟩
  · exact Or.inl rfl
  · rcases rl with _ | v
    · rcases pl with _ | pl' <;> rcases pd with _ | pd'
      · exact Or.inl rfl
      · exact Or.inl rfl
      · exact Or.inl rfl
      · exact Or.inr ⟨pl', pd', rfl⟩
    · exact Or.inl rfl

theorem stepB_cases (r : Row) :
    stepB r = r ∨ ∃ q l, r.qx = some q ∧ r.lx = some l ∧
      stepB r = { r with dx := some (l * q) } := by
  obtain ⟨ra, rl, rq, rd⟩ := r
  rcases rd with _ | d
  · rcases rq with _ | q <;> rcases rl with _ | l
    · exact Or.inl rfl
    · exact Or.inl rfl
    · exact Or.inl rfl
    · exact Or.inr ⟨q, l, rfl, rfl, rfl⟩
  · exact Or.inl rfl

theorem stepC_cases (r : Row) :
    stepC r = r ∨ ∃ d l, r.dx = some d ∧ r.lx = some l ∧
      stepC r = { r with qx := some (if 0 < l then min 1 (d / l) else 0) } := by
  obtain ⟨ra, rl, rq, rd⟩ := r
  rcases rq with _ | q
  · rcases rd with _ | d <;> rcases rl with _ | l
    · exact Or.inl rfl
    · exact Or.inl rfl
    · exact Or.inl rfl
    · exact Or.inr ⟨d, l, rfl, rfl, rfl⟩
  · exact Or.inl rfl

theorem step2Row_some_cases (p r : Row) :
    step2Row (some p) r = r ∨ ∃ pl pq, p.lx = some pl ∧ p.qx = some pq ∧ r.lx = none ∧
      step2Row (some p) r = { r with lx := some (max 0 (pl * (1 - pq))) } := by
  obtain ⟨ra, rl, rq, rd⟩ := r
  rcases rl with _ | v
  · obtain ⟨pa, pl, pq, pd⟩ := p
    rcases pl with _ | pl' <;> rcases pq with _ | pq'
    · exact Or.inl rfl
    · exact Or.inl rfl
    · exact Or.inl rfl
    · exact Or.inr ⟨pl', pq', rfl, rfl, rfl, rfl⟩
  · exact Or.inl rfl

theorem stepA_nn (p? : Option Row) (r : Row) (hr : nnRow r) : nnRow (stepA p? r) := by
  rcases stepA_cases p? r with h | ⟨pl, pd, h⟩ <;> rw [h]
  · exact hr
  · refine ⟨?_, hr.2.1, hr.2.2⟩
    intro v hv
    injection hv with hv'
    rw [← hv']
    exact le_max_left 0 _

theorem stepB_nn (r : Row) (hr : nnRow r) : nnRow (stepB r) := by
  rcases stepB_cases r with h | ⟨q, l, hq, hl, h⟩ <;> rw [h]
  · exact hr
  · refine ⟨hr.1, hr.2.1, ?_⟩
    intro v hv
    injection hv with hv'
    rw [← hv']
    exact mul_nonneg (hr.1 l hl) (hr.2.1 q hq)

theorem stepC_nn (r : Row) (hr : nnRow r) : nnRow (stepC r) := by
  rcases stepC_cases r with h | ⟨d, l, hd, hl, h⟩ <;> rw [h]
  · exact hr
  · refine ⟨hr.1, ?_, hr.2.2⟩
    intro v hv
    injection hv with hv'
    rw [← hv']
    exact (qx_formula_bounds d l (hr.2.2 d hd)).1

theorem step1Row_nn (p? : Option Row) (r : Row) (hr : nnRow r) : nnRow (step1Row p? r) :=
  stepC_nn _ (stepB_nn _ (stepA_nn p? r hr))

theorem step2Row_nn (p? : Option Row) (r : Row) (hr : nnRow r) : nnRow (step2Row p? r) := by
  rcases p? with _ | p
  · rw [step2Row_none]; exact hr
  · rcases step2Row_some_cases p r with h | ⟨pl, pq, _, _, _, h⟩ <;> rw [h]
    · exact hr
    · refine ⟨?_, hr.2.1, hr.2.2⟩
      intro v hv
      injection hv with hv'
      rw [← hv']
      exact le_max_left 0 _

theorem step1Row_lx_some (p? : Option Row) (r : Row) (v : ℚ) (h : r.lx = some v) :
    (step1Row p? r).lx = some v := by
  rw [step1Row_lx]
  obtain ⟨ra, rl, rq, rd⟩ := r
  cases h
  rcases p? with _ | p <;> rfl

theorem step1Row_lx_none (p r : Row) (c : ℚ) (hrl : r.lx = none) (hpl : p.lx = some c) :
    (step1Row (some p) r).lx =
      match p.dx with
      | some pd => some (max 0 (c - pd))
      | none => none := by
  rw [step1Row_lx]
  obtain ⟨ra, rl, rq, rd⟩ := r
  cases hrl
  obtain ⟨pa, pl, pq, pd⟩ := p
  cases hpl
  rcases pd with _ | pd' <;> rfl

theorem step1Row_frozen (p r : Row) (hp : p.lx = none) (hr : r.lx = none) :
    step1Row (some p) r = r := by
  obtain ⟨pa, pl, pq, pd⟩ := p
  cases hp
  obtain ⟨ra, rl, rq, rd⟩ := r
  cases hr
  rcases rq with _ | q <;> rcases rd with _ | d <;> rfl

theorem specPass1_dead (rows : List Row) : ∀ (p : Row), p.lx = none →
    (∀ r ∈ rows, r.lx = none) → specPass1 (some p) rows = rows := by
  induction rows with
  | nil => intro p _ _; rfl
  | cons r rs ih =>
    intro p hp hall
    show step1Row (some p) r :: specPass1 (some (step1Row (some p) r)) rs = r :: rs
    rw [step1Row_frozen p r hp (hall r (List.mem_cons_self r rs))]
    rw [ih r (hall r (List.mem_cons_self r rs)) (fun x hx => hall x (List.mem_cons_of_mem r hx))]

theorem specPass1_chain (rows : List Row) : ∀ (p : Row) (c : ℚ),
    p.lx = some c → 0 ≤ c → nnRow p →
    (∀ r ∈ rows, r.lx = none ∧ nnRow r) →
    lxLe c (specPass1 (some p) rows) ∧ ∀ x ∈ specPass1 (some p) rows, nnRow x := by
  induction rows with
  | nil =>
    intro p c _ _ _ _
    exact ⟨trivial, by intro x hx; simp [specPass1] at hx⟩
  | cons r rs ih =>
    intro p c hpl hc hnp hall
    have hrl : r.lx = none := (hall r (List.mem_cons_self r rs)).1
    have hnr : nnRow r := (hall r (List.mem_cons_self r rs)).2
    have hall' : ∀ x ∈ rs, x.lx = none ∧ nnRow x :=
      fun x hx => hall x (List.mem_cons_of_mem r hx)
    have hnr' : nnRow (step1Row (some p) r) := step1Row_nn _ _ hnr
    show lxLe c (step1Row (some p) r :: specPass1 (some (step1Row (some p) r)) rs) ∧
      ∀ x ∈ step1Row (some p) r :: specPass1 (some (step1Row (some p) r)) rs, nnRow x
    rcases hpd : p.dx with _ | pd
    · have hlx : (step1Row (some p) r).lx = none := by
        rw [step1Row_lx_none p r c hrl hpl, hpd]
      have hdead : specPass1 (some (step1Row (some p) r)) rs = rs :=
        specPass1_dead rs _ hlx (fun x hx => (hall' x hx).1)
      rw [hdead]
      constructor
      · refine ⟨by rw [hlx]; exact hc, by rw [hlx]; exact le_refl 0, ?_⟩
        rw [hlx]
        exact lxLe_of_none rs 0 (le_refl 0) (fun x hx => (hall' x hx).1)
      · intro x hx
        rcases List.mem_cons.mp hx with h1 | h2
        · rw [h1]; exact hnr'
        · exact (hall' x h2).2
    · have hlx : (step1Row (some p) r).lx = some (max 0 (c - pd)) := by
        rw [step1Row_lx_none p r c hrl hpl, hpd]
      have hv0 : (0 : ℚ) ≤ max 0 (c - pd) := le_max_left 0 _
      have hvc : max 0 (c - pd) ≤ c := max_le hc (sub_le_self c (hnp.2.2 pd hpd))
      obtain ⟨ht1, ht2⟩ := ih (step1Row (some p) r) (max 0 (c - pd)) hlx hv0 hnr' hall'
      constructor
      · refine ⟨by rw [hlx]; exact hvc, by rw [hlx]; exact hv0, ?_⟩
        rw [hlx]
        exact ht1
      · intro x hx
        rcases List.mem_cons.mp hx with h1 | h2
        · rw [h1]; exact hnr'
        · exact ht2 x h2

theorem specPass2_chain (rows : List Row) : ∀ (p : Row),
    nnRow p → (∀ x ∈ rows, nnRow x) → lxLe (p.lx.getD 0) rows →
    lxLe (p.lx.getD 0) (specPass2 (some p) rows) ∧
      ∀ x ∈ specPass2 (some p) rows, nnRow x := by
  induction rows with
  | nil =>
    intro p _ _ _
    exact ⟨trivial, by intro x hx; simp [specPass2] at hx⟩
  | cons r rs ih =>
    intro p hnp hall hch
    have hnr : nnRow r := hall r (List.mem_cons_self r rs)
    have hall' : ∀ x ∈ rs, nnRow x := fun x hx => hall x (List.mem_cons_of_mem r hx)
    obtain ⟨hc1, hc2, hc3⟩ := hch
    show lxLe (p.lx.getD 0) (step2Row (some p) r :: specPass2 (some (step2Row (some p) r)) rs) ∧
      ∀ x ∈ step2Row (some p) r :: specPass2 (some (step2Row (some p) r)) rs, nnRow x
    rcases step2Row_some_cases p r with heq | ⟨pl, pq, hpl, hpq, hrl, heq⟩
    · rw [heq]
      obtain ⟨ht1, ht2⟩ := ih r hnr hall' hc3
      constructor
      · exact ⟨hc1, hc2, ht1⟩
      · intro x hx
        rcases List.mem_cons.mp hx with h1 | h2
        · rw [h1]; exact hnr
        · exact ht2 x h2
    · rw [heq]
      have hnew : ({ r with lx := some (max 0 (pl * (1 - pq))) } : Row).lx.getD 0 =
          max 0 (pl * (1 - pq)) := rfl
      have hv0 : (0 : ℚ) ≤ max 0 (pl * (1 - pq)) := le_max_left 0 _
      have hvle : max 0 (pl * (1 - pq)) ≤ p.lx.getD 0 := by
        rw [hpl]
        refine max_le (hnp.1 pl hpl) ?_
        have h1q : 1 - pq ≤ 1 := by linarith [hnp.2.1 pq hpq]
        calc pl * (1 - pq) ≤ pl * 1 := mul_le_mul_of_nonneg_left h1q (hnp.1 pl hpl)
          _ = pl := mul_one pl
      have hnn2 : nnRow ({ r with lx := some (max 0 (pl * (1 - pq))) } : Row) := by
        refine ⟨?_, hnr.2.1, hnr.2.2⟩
        intro v hv
        injection hv with hv'
        rw [← hv']
        exact hv0
      have hch2 : lxLe (({ r with lx := some (max 0 (pl * (1 - pq))) } : Row).lx.getD 0) rs := by
        rw [hnew]
        rw [hrl] at hc3
        exact lxLe_mono rs hc3 hv0
      obtain ⟨ht1, ht2⟩ := ih _ hnn2 hall' hch2
      constructor
      · rw [hnew] at ht1
        exact ⟨by rw [hnew]; exact hvle, by rw [hnew]; exact hv0, by rw [hnew]; exact ht1⟩
      · intro x hx
        rcases List.mem_cons.mp hx with h1 | h2
        · rw [h1]; exact hnn2
        · exact ht2 x h2

theorem lxLe_pairwise (l : List Row) : ∀ (c : ℚ), lxLe c l →
    ∀ (i : Nat) (a b : Row), l[i]? = some a → l[i+1]? = some b →
      b.lx.getD 0 ≤ a.lx.getD 0 := by
  induction l with
  | nil => intro c _ i a b ha _; simp at ha
  | cons r rs ih =>
    intro c hch i a b ha hb
    cases i with
    | zero =>
      simp only [List.getElem?_cons_zero, Option.some.injEq] at ha
      subst ha
      simp only [List.getElem?_cons_succ] at hb
      cases rs with
      | nil => simp at hb
      | cons s ss =>
        simp only [List.getElem?_cons_zero, Option.some.injEq] at hb
        subst hb
        exact hch.2.2.1
    | succ j =>
      simp only [List.getElem?_cons_succ] at ha hb
      exact ih (r.lx.getD 0) hch.2.2 j a b ha hb

/-- When no lx is supplied, every supplied qx and dx is non-negative and
the radix is non-negative, the completed lx column (read through
`fillna(0)`) is non-increasing along the rows. -/
theorem completerSpec_chain (radix : ℚ) (rows : List Row)
    (hradix : 0 ≤ radix)
    (hnone : ∀ r ∈ rows, r.lx = none)
    (hnn : ∀ r ∈ rows, nnRow r) :
    ∀ (i : Nat) (a b : Row), (completerSpec radix rows)[i]? = some a →
      (completerSpec radix rows)[i+1]? = some b → b.lx.getD 0 ≤ a.lx.getD 0 := by
  cases rows with
  | nil => intro i a b ha _; simp [completerSpec] at ha
  | cons r rs =>
    have hrl : r.lx = none := hnone r (List.mem_cons_self r rs)
    have hstep : completerSpec radix (r :: rs) =
        specPass2 none (specPass1 none ({ r with lx := some radix } :: rs)) := by
      show specPass2 none (specPass1 none
        ((if r.lx = none then { r with lx := some radix } else r) :: rs)) = _
      rw [if_pos hrl]
    have hp1 : specPass1 none ({ r with lx := some radix } :: rs) =
        step1Row none { r with lx := some radix } ::
          specPass1 (some (step1Row none { r with lx := some radix })) rs := rfl
    have hnr0 : nnRow ({ r with lx := some radix } : Row) := by
      refine ⟨?_, (hnn r (List.mem_cons_self r rs)).2.1,
        (hnn r (List.mem_cons_self r rs)).2.2⟩
      intro v hv
      injection hv with hv'
      rw [← hv']
      exact hradix
    have hnr1 : nnRow (step1Row none { r with lx := some radix }) :=
      step1Row_nn none _ hnr0
    have hr1lx : (step1Row none { r with lx := some radix }).lx = some radix :=
      step1Row_lx_some none _ radix rfl
    have hallrs : ∀ x ∈ rs, x.lx = none ∧ nnRow x :=
      fun x hx => ⟨hnone x (List.mem_cons_of_mem r hx), hnn x (List.mem_cons_of_mem r hx)⟩
    obtain ⟨hch1, hnn1⟩ := specPass1_chain rs (step1Row none { r with lx := some radix })
      radix hr1lx hradix hnr1 hallrs
    have hp2 : specPass2 none (step1Row none { r with lx := some radix } ::
        specPass1 (some (step1Row none { r with lx := some radix })) rs) =
        step1Row none { r with lx := some radix } ::
          specPass2 (some (step1Row none { r with lx := some radix }))
            (specPass1 (some (step1Row none { r with lx := some radix })) rs) := by
      show step2Row none _ :: _ = _
      rw [step2Row_none]
    obtain ⟨hch2, _⟩ := specPass2_chain
      (specPass1 (some (step1Row none { r with lx := some radix })) rs)
      (step1Row none { r with lx := some radix }) hnr1 hnn1
      (by rw [hr1lx]; exact hch1)
    have hfull : lxLe ((step1Row none { r with lx := some radix }).lx.getD 0)
        (step1Row none { r with lx := some radix } ::
          specPass2 (some (step1Row none { r with lx := some radix }))
            (specPass1 (some (step1Row none { r with lx := some radix })) rs)) := by
      refine ⟨le_refl _, ?_, hch2⟩
      rw [hr1lx]
      exact hradix
    intro i a b ha hb
    rw [hstep, hp1, hp2] at ha hb
    exact lxLe_pairwise _ _ hfull i a b ha hb

theorem derive_lx_pairwise (rows : List Row)
    (h : ∀ (i : Nat) (a b : Row), rows[i]? = some a → rows[i+1]? = some b →
      b.lx.getD 0 ≤ a.lx.getD 0) :
    ∀ (i : Nat) (a b : OutRow), (_add_life_table_functions rows)[i]? = some a →
      (_add_life_table_functions rows)[i+1]? = some b → b.lx ≤ a.lx := by
  intro i a b ha hb
  obtain ⟨r1, t1, hr1, _, he1⟩ := derive_nth rows i a ha
  obtain ⟨r2, t2, hr2, _, he2⟩ := derive_nth rows (i+1) b hb
  rw [he1, he2]
  exact h i r1 r2 hr1 hr2

/-! ## Calculator facts: field projections, Tx recurrence, idempotence -/

theorem deriveRow_age (r : Row) (tx : Option ℚ) : (deriveRow r tx).age = r.age.getD 0 := rfl

theorem deriveRow_lx (r : Row) (tx : Option ℚ) : (deriveRow r tx).lx = r.lx.getD 0 := rfl

theorem deriveRow_qx (r : Row) (tx : Option ℚ) : (deriveRow r tx).qx = r.qx.getD 0 := rfl

theorem deriveRow_dx (r : Row) (tx : Option ℚ) : (deriveRow r tx).dx = r.dx.getD 0 := rfl

theorem deriveRow_px (r : Row) (tx : Option ℚ) :
    (deriveRow r tx).px = (r.qx.map (fun q => 1 - q)).getD 0 := rfl

theorem deriveRow_Lx (r : Row) (tx : Option ℚ) : (deriveRow r tx).Lx = (LxOf r).getD 0 := rfl

theorem deriveRow_Tx (r : Row) (tx : Option ℚ) : (deriveRow r tx).Tx = tx.getD 0 := rfl

/-- `ex = np.where(lx > 0, Tx/lx, 0)` reads 0 whenever the cleaned lx is 0
(absent lx, or a present 0). -/
theorem deriveRow_ex_zero (r : Row) (tx : Option ℚ) (h : r.lx.getD 0 = 0) :
    (deriveRow r tx).ex = 0 := by
  obtain ⟨ra, rl, rq, rd⟩ := r
  rcases rl with _ | l
  · rfl
  · have hl : l = 0 := h
    subst hl
    show (if (0 : ℚ) < 0 then (tx.map (fun t => t / 0)).getD 0 else 0) = 0
    rw [if_neg (lt_irrefl 0)]

theorem LxOf_some (r : Row) (hl : r.lx ≠ none) (hd : r.dx ≠ none) :
    ∃ v, LxOf r = some v := by
  obtain ⟨ra, rl, rq, rd⟩ := r
  rcases rl with _ | l
  · exact absurd rfl hl
  rcases rd with _ | d
  · exact absurd rfl hd
  exact ⟨l - d / 2, rfl⟩

/-- Tx recurrence on fully populated tables: each row's Tx is its Lx plus
the next row's Tx (0 beyond the last row). -/
theorem derive_Tx_master (rows : List Row)
    (h : ∀ r ∈ rows, r.lx ≠ none ∧ r.dx ≠ none) :
    ∀ (i : Nat) (a : OutRow), (_add_life_table_functions rows)[i]? = some a →
      a.Tx = a.Lx + ((_add_life_table_functions rows)[i + 1]?.elim 0 OutRow.Tx) := by
  induction rows with
  | nil => intro i a ha; simp [_add_life_table_functions] at ha
  | cons r rs ih =>
    intro i a ha
    have hr := h r (List.mem_cons_self r rs)
    obtain ⟨vr, hvr⟩ := LxOf_some r hr.1 hr.2
    have ih' := ih (fun x hx => h x (List.mem_cons_of_mem r hx))
    rw [derive_cons] at ha ⊢
    cases i with
    | zero =>
      simp only [List.getElem?_cons_zero, Option.some.injEq] at ha
      subst ha
      simp only [List.getElem?_cons_succ, List.getElem?_cons_zero]
      cases rs with
      | nil =>
        rw [deriveRow_Tx, deriveRow_Lx, hvr]
        simp [_add_life_table_functions, TxList, cumsumSkip, sumSome]
      | cons s ss =>
        have hs := h s (List.mem_cons_of_mem r (List.mem_cons_self s ss))
        obtain ⟨vs, hvs⟩ := LxOf_some s hs.1 hs.2
        rw [derive_cons, List.getElem?_cons_zero]
        rw [deriveRow_Tx, deriveRow_Lx, hvr]
        simp only [Option.elim_some, deriveRow_Tx]
        rw [List.map_cons, hvs]
        simp only [sumSome, Option.map_some', Option.map_some, Option.getD_some]
        ring
    | succ j =>
      simp only [List.getElem?_cons_succ] at ha ⊢
      exact ih' j a ha

theorem toRow_deriveRow (r : Row) (tx : Option ℚ)
    (hl : r.lx ≠ none) (hq : r.qx ≠ none) (hd : r.dx ≠ none) :
    toRow (deriveRow r tx) = cleanRow r := by
  obtain ⟨ra, rl, rq, rd⟩ := r
  rcases rl with _ | l
  · exact absurd rfl hl
  rcases rq with _ | q
  · exact absurd rfl hq
  rcases rd with _ | d
  · exact absurd rfl hd
  rfl

theorem map_toRow_derive (rows : List Row)
    (h : ∀ r ∈ rows, r.lx ≠ none ∧ r.qx ≠ none ∧ r.dx ≠ none) :
    (_add_life_table_functions rows).map toRow = rows.map cleanRow := by
  induction rows with
  | nil => rfl
  | cons r rs ih =>
    rw [derive_cons, List.map_cons, List.map_cons]
    have hr := h r (List.mem_cons_self r rs)
    rw [toRow_deriveRow r _ hr.1 hr.2.1 hr.2.2]
    rw [ih (fun x hx => h x (List.mem_cons_of_mem r hx))]

theorem LxOf_cleanRow (r : Row) : LxOf (cleanRow r) = LxOf r := rfl

theorem deriveRow_cleanRow (r : Row) (tx : Option ℚ) :
    deriveRow (cleanRow r) tx = deriveRow r tx := rfl

theorem TxList_cleanRow (rows : List Row) : TxList (rows.map cleanRow) = TxList rows := by
  unfold TxList
  rw [List.map_map]
  have hmap : rows.map (LxOf ∘ cleanRow) = rows.map LxOf := by
    simp [Function.comp, LxOf_cleanRow]
  rw [hmap]

theorem zipWith_deriveRow_cleanRow (rows : List Row) : ∀ T : List (Option ℚ),
    List.zipWith deriveRow (rows.map cleanRow) T = List.zipWith deriveRow rows T := by
  induction rows with
  | nil => intro T; rfl
  | cons r rs ih =>
    intro T
    cases T with
    | nil => rfl
    | cons t ts => simp [deriveRow_cleanRow, ih]

/-- On a table whose lx/qx/dx are all present, running the calculator on
its own (re-ingested) output reproduces that output. -/
theorem derive_idem (rows : List Row)
    (h : ∀ r ∈ rows, r.lx ≠ none ∧ r.qx ≠ none ∧ r.dx ≠ none) :
    _add_life_table_functions ((_add_life_table_functions rows).map toRow) =
      _add_life_table_functions rows := by
  rw [map_toRow_derive rows h]
  show List.zipWith deriveRow (rows.map cleanRow) (TxList (rows.map cleanRow)) = _
  rw [TxList_cleanRow, zipWith_deriveRow_cleanRow]
  rfl

theorem normalize_ok_shape (t : InputTable) (rows : List Row)
    (h : normalizeRows t = .ok rows) : rows = t.rows.map (mkRow t.labels) := by
  unfold normalizeRows at h
  rcases hA : matchColumn t.labels ageSyns with _ | la <;> rw [hA] at h
  · cases h
  rcases hQ : matchColumn t.labels qxSyns with _ | lq <;> rw [hQ] at h
  · cases h
  injection h with h2
  exact h2.symm

theorem create_ok_shape (t : InputTable) (radix : ℚ) (rows : List Row) (out : List OutRow)
    (hn : normalizeRows t = .ok rows) (hc : create_mortality_table radix t = .ok out) :
    out = _add_life_table_functions (_complete_calculations radix (sortByAge rows)) := by
  unfold create_mortality_table at hc
  rw [hn] at hc
  simp only [Except.map] at hc
  injection hc with h2
  exact h2.symm

theorem complete_qx_bounds (radix : ℚ) (rows : List Row)
    (hq : ∀ r ∈ rows, ∀ q, r.qx = some q → 0 ≤ q ∧ q ≤ 1)
    (hd : ∀ r ∈ rows, ∀ d, r.dx = some d → 0 ≤ d) :
    ∀ x ∈ _complete_calculations radix rows, ∀ q, x.qx = some q → 0 ≤ q ∧ q ≤ 1 := by
  rw [complete_eq_spec]
  exact completerSpec_qx_bounds radix rows hq hd

theorem complete_map_age (radix : ℚ) (rows : List Row) :
    (_complete_calculations radix rows).map Row.age = rows.map Row.age := by
  apply List.ext_getElem?
  intro i
  rw [List.getElem?_map, List.getElem?_map]
  rcases hr : rows[i]? with _ | r
  · have hnone : (_complete_calculations radix rows)[i]? = none := by
      rw [List.getElem?_eq_none_iff, complete_length]
      exact List.getElem?_eq_none_iff.mp hr
    rw [hnone]
  · obtain ⟨r', hr', hk⟩ := complete_ext radix rows i r hr
    rw [hr']
    simp [hk.1]

/-! ## Claims -/

/-- C1: the Sequence Completer follows the exact two-pass algorithm of the
spec: the index-based loop embedding `_complete_calculations` coincides on
every input with the spec-modelled two forward passes `completerSpec`
(radix seeding, then per row (a) lx, (b) dx, (c) qx in order, each seeing
values already set in the same pass; then the corrective second lx pass;
cells still absent stay absent). In particular on Scenario A
(`{age:0, qx:0.01}, {age:1, qx:0.02}`, radix 100000) the completed values
are lx = [100000, 99000], dx = [1000, 1980]. -/
theorem claim_C1 :
    (∀ (radix : ℚ) (rows : List Row),
      _complete_calculations radix rows = completerSpec radix rows) ∧
    _complete_calculations 100000
        [⟨some 0, none, some (1/100), none⟩, ⟨some 1, none, some (2/100), none⟩] =
      [⟨some 0, some 100000, some (1/100), some 1000⟩,
       ⟨some 1, some 99000, some (2/100), some 1980⟩] := by
  constructor
  · exact complete_eq_spec
  · norm_num [_complete_calculations, pyRange, rangeGo, pass1Step, pass2Step, pyGet,
      step1Row, stepA, stepB, stepC, step2Row, List.set]

/-- C3: generation fails with `MissingRequiredColumn` exactly when no
label matches an age synonym or none matches a qx synonym; unmatched lx
and dx columns leave those fields absent (not zero) in every normalized
row. -/
theorem claim_C3 (t : InputTable) (radix : ℚ) :
    ((∃ e, create_mortality_table radix t = .error e) ↔
      (matchColumn t.labels ageSyns = none ∨ matchColumn t.labels qxSyns = none)) ∧
    (matchColumn t.labels lxSyns = none →
      ∀ rows, normalizeRows t = .ok rows → ∀ r ∈ rows, r.lx = none) ∧
    (matchColumn t.labels dxSyns = none →
      ∀ rows, normalizeRows t = .ok rows → ∀ r ∈ rows, r.dx = none) := by
  refine ⟨?_, ?_, ?_⟩
  · unfold create_mortality_table normalizeRows
    rcases hA : matchColumn t.labels ageSyns with _ | la
    · simp [Except.map]
    rcases hQ : matchColumn t.labels qxSyns with _ | lq
    · simp [Except.map]
    · simp [Except.map]
  · intro hlx rows hrows r hr
    unfold normalizeRows at hrows
    rcases hA : matchColumn t.labels ageSyns with _ | la <;> rw [hA] at hrows
    · cases hrows
    rcases hQ : matchColumn t.labels qxSyns with _ | lq <;> rw [hQ] at hrows
    · cases hrows
    injection hrows with hrows'
    subst hrows'
    obtain ⟨cells, _, rfl⟩ := List.mem_map.mp hr
    show cellAt cells (colIdx t.labels lxSyns) = none
    rw [colIdx, hlx]
    rfl
  · intro hdx rows hrows r hr
    unfold normalizeRows at hrows
    rcases hA : matchColumn t.labels ageSyns with _ | la <;> rw [hA] at hrows
    · cases hrows
    rcases hQ : matchColumn t.labels qxSyns with _ | lq <;> rw [hQ] at hrows
    · cases hrows
    injection hrows with hrows'
    subst hrows'
    obtain ⟨cells, _, rfl⟩ := List.mem_map.mp hr
    show cellAt cells (colIdx t.labels dxSyns) = none
    rw [colIdx, hdx]
    rfl

/-- C3 witness: a table with an age column but no qx column is rejected. -/
theorem claim_C3_witness :
    ∃ e, create_mortality_table 100000 ⟨["age"], [[some 0]]⟩ = .error e :=
  (claim_C3 ⟨["age"], [[some 0]]⟩ 100000).1.mpr (Or.inr rfl)

/-- C7: division by zero never propagates: an output row whose cleaned lx
is 0 has ex = 0, and every cell still absent after completion reads 0 in
the output (lx, dx as plain zeros; an absent qx zeroes both qx and px). -/
theorem claim_C7 (rows : List Row) (i : Nat) (r : Row) (o : OutRow)
    (hr : rows[i]? = some r) (ho : (_add_life_table_functions rows)[i]? = some o) :
    (o.lx = 0 → o.ex = 0) ∧ (r.lx = none → o.lx = 0) ∧
      (r.qx = none → o.qx = 0 ∧ o.px = 0) ∧ (r.dx = none → o.dx = 0) ∧
      (r.age = none → o.age = 0) := by
  obtain ⟨r', tx, hr', _, rfl⟩ := derive_nth rows i o ho
  rw [hr] at hr'
  injection hr' with hr''
  subst hr''
  refine ⟨?_, ?_, ?_, ?_, ?_⟩
  · intro hlx0
    exact deriveRow_ex_zero r tx hlx0
  · intro h
    rw [deriveRow_lx, h]
    rfl
  · intro h
    rw [deriveRow_qx, deriveRow_px, h]
    exact ⟨rfl, rfl⟩
  · intro h
    rw [deriveRow_dx, h]
    rfl
  · intro h
    rw [deriveRow_age, h]
    rfl

/-- C7 witness: a single row with `lx = 0` supplied gets `ex = 0`. -/
theorem claim_C7_witness :
    ∃ o, (_add_life_table_functions [(⟨some 0, some 0, some (1/2), some 0⟩ : Row)])[0]? =
        some o ∧ o.ex = 0 ∧ o.lx = 0 := by
  have hlist : _add_life_table_functions [(⟨some 0, some 0, some (1/2), some 0⟩ : Row)] =
      [deriveRow ⟨some 0, some 0, some (1/2), some 0⟩ (some 0)] := by
    norm_num [_add_life_table_functions, TxList, cumsumSkip, LxOf]
  have h := claim_C7 [(⟨some 0, some 0, some (1/2), some 0⟩ : Row)] 0
    ⟨some 0, some 0, some (1/2), some 0⟩
    (deriveRow ⟨some 0, some 0, some (1/2), some 0⟩ (some 0)) rfl (by rw [hlist]; rfl)
  refine ⟨deriveRow ⟨some 0, some 0, some (1/2), some 0⟩ (some 0), by rw [hlist]; rfl, ?_, rfl⟩
  exact h.1 rfl

/-- C9: the Sequence Completer never overwrites supplied values: every row
keeps its age, and any lx/qx/dx present on input is present with the same
value in the completed table. -/
theorem claim_C9 (radix : ℚ) (rows : List Row) (i : Nat) (r : Row)
    (h : rows[i]? = some r) :
    ∃ r', (_complete_calculations radix rows)[i]? = some r' ∧ r'.age = r.age ∧
      (∀ v, r.lx = some v → r'.lx = some v) ∧ (∀ v, r.qx = some v → r'.qx = some v) ∧
      (∀ v, r.dx = some v → r'.dx = some v) :=
  complete_ext radix rows i r h

/-- C9 witness: a supplied lx that disagrees with the recurrence
(lx = 123 at age 1) is kept verbatim by the completer. -/
theorem claim_C9_witness :
    ∃ r', (_complete_calculations 100000
        [⟨some 0, none, some (1/100), none⟩, ⟨some 1, some 123, some (2/100), none⟩])[1]? =
          some r' ∧ r'.lx = some 123 ∧ r'.qx = some (2/100) := by
  obtain ⟨r', hr', _, hl, hq, _⟩ := claim_C9 100000
    [⟨some 0, none, some (1/100), none⟩, ⟨some 1, some 123, some (2/100), none⟩] 1
    ⟨some 1, some 123, some (2/100), none⟩ rfl
  exact ⟨r', hr', hl 123 rfl, hq (2/100) rfl⟩

/-- C2 counterexample: an accepted input whose middle row supplies only
its age yields a completed table with an undefined Lx at that row; pandas'
skip-NaN cumsum then gives Tx = [75075, 0, 75] with Lx[0] = 75000, so
`Tx[0] = Lx[0] + Tx[1]` fails (75075 ≠ 75000 + 0). -/
theorem claim_C2_cex :
    ∃ out a b, create_mortality_table 100000
        ⟨["age", "qx", "lx", "dx"],
         [[some 0, some (1/2), none, none],
          [some 1, none, none, none],
          [some 2, some (1/2), some 100, some 50]]⟩ = .ok out ∧
      out[0]? = some a ∧ out[1]? = some b ∧ ¬ a.Tx = a.Lx + b.Tx := by
  have h : normalizeRows ⟨["age", "qx", "lx", "dx"],
      [[some 0, some (1/2), none, none],
       [some 1, none, none, none],
       [some 2, some (1/2), some 100, some 50]]⟩ =
      .ok [⟨some 0, none, some (1/2), none⟩, ⟨some 1, none, none, none⟩,
           ⟨some 2, some 100, some (1/2), some 50⟩] := rfl
  refine ⟨[⟨0, 100000, 1/2, 50000, 1/2, 75000, 75075, 3003/4000⟩,
           ⟨1, 50000, 0, 0, 0, 0, 0, 0⟩,
           ⟨2, 100, 1/2, 50, 1/2, 75, 75, 3/4⟩],
    ⟨0, 100000, 1/2, 50000, 1/2, 75000, 75075, 3003/4000⟩,
    ⟨1, 50000, 0, 0, 0, 0, 0, 0⟩, ?_, rfl, rfl, by norm_num⟩
  unfold create_mortality_table
  rw [h]
  norm_num [sortByAge, insertByAge, ageLe,
    _complete_calculations, pyRange, rangeGo, pass1Step, pass2Step, pyGet,
    step1Row, stepA, stepB, stepC, step2Row, List.set,
    _add_life_table_functions, TxList, cumsumSkip, LxOf, deriveRow, Except.map]

/-- C2 (amended): on completed tables in which every row carries both lx
and dx, Tx is the exact reverse cumulative sum over the rows: the last row
satisfies Tx = Lx, and every other row satisfies Tx[i] = Lx[i] + Tx[i+1].
(Rows with an undefined Lx are skipped by the source's cumsum and read 0
after cleanup, which breaks the recurrence across them.) -/
theorem claim_C2 (rows : List Row)
    (h : ∀ r ∈ rows, r.lx ≠ none ∧ r.dx ≠ none) :
    (∀ (i : Nat) (a : OutRow), (_add_life_table_functions rows)[i]? = some a →
      (_add_life_table_functions rows)[i + 1]? = none → a.Tx = a.Lx) ∧
    (∀ (i : Nat) (a b : OutRow), (_add_life_table_functions rows)[i]? = some a →
      (_add_life_table_functions rows)[i + 1]? = some b → a.Tx = a.Lx + b.Tx) := by
  constructor
  · intro i a ha hnone
    have hm := derive_Tx_master rows h i a ha
    rw [hnone] at hm
    simpa using hm
  · intro i a b ha hb
    have hm := derive_Tx_master rows h i a ha
    rw [hb] at hm
    simpa using hm

/-- C2 witness: on a two-row fully populated table the recurrence holds
concretely (Tx = [150, 50], Lx = [100, 50]). -/
theorem claim_C2_witness :
    ∃ a b, (_add_life_table_functions
        [⟨some 0, some 100, some (1/2), some 0⟩, ⟨some 1, some 50, some 1, some 0⟩])[0]? =
          some a ∧
      (_add_life_table_functions
        [⟨some 0, some 100, some (1/2), some 0⟩, ⟨some 1, some 50, some 1, some 0⟩])[1]? =
          some b ∧
      (_add_life_table_functions
        [⟨some 0, some 100, some (1/2), some 0⟩, ⟨some 1, some 50, some 1, some 0⟩])[2]? =
          none ∧
      a.Tx = a.Lx + b.Tx ∧ b.Tx = b.Lx := by
  have hc := claim_C2
    [⟨some 0, some 100, some (1/2), some 0⟩, ⟨some 1, some 50, some 1, some 0⟩] (by simp)
  have hlist : _add_life_table_functions
      [⟨some 0, some 100, some (1/2), some 0⟩, ⟨some 1, some 50, some 1, some 0⟩] =
      [deriveRow ⟨some 0, some 100, some (1/2), some 0⟩ (some 150),
       deriveRow ⟨some 1, some 50, some 1, some 0⟩ (some 50)] := by
    norm_num [_add_life_table_functions, TxList, cumsumSkip, LxOf]
  refine ⟨_, _, by rw [hlist]; rfl, by rw [hlist]; rfl, by rw [hlist]; rfl, ?_, ?_⟩
  · exact hc.2 0 _ _ (by rw [hlist]; rfl) (by rw [hlist]; rfl)
  · exact hc.1 1 _ (by rw [hlist]; rfl) (by rw [hlist]; rfl)

/-- C6 counterexample: a completed row with qx still absent is cleaned to
qx = 0 with px = 0; feeding that output back recomputes px = 1 - 0 = 1,
so the calculator is not idempotent on tables with absent cells. -/
theorem claim_C6_cex :
    _add_life_table_functions
        ((_add_life_table_functions [(⟨some 0, some 100, none, some 0⟩ : Row)]).map toRow) ≠
      _add_life_table_functions [(⟨some 0, some 100, none, some 0⟩ : Row)] := by
  have h1 : _add_life_table_functions [(⟨some 0, some 100, none, some 0⟩ : Row)] =
      [⟨0, 100, 0, 0, 0, 100, 100, 1⟩] := by
    norm_num [_add_life_table_functions, TxList, cumsumSkip, LxOf, deriveRow]
  have h2 : _add_life_table_functions [(⟨some 0, some 100, some 0, some 0⟩ : Row)] =
      [⟨0, 100, 0, 0, 1, 100, 100, 1⟩] := by
    norm_num [_add_life_table_functions, TxList, cumsumSkip, LxOf, deriveRow]
  rw [h1]
  show _add_life_table_functions [toRow ⟨0, 100, 0, 0, 0, 100, 100, 1⟩] ≠ _
  show _add_life_table_functions [(⟨some 0, some 100, some 0, some 0⟩ : Row)] ≠ _
  rw [h2]
  simp only [ne_eq, List.cons.injEq, OutRow.mk.injEq]
  norm_num

/-- C6 (amended): the Derived-Function Calculator is idempotent on every
table whose rows all carry lx, qx and dx (in particular on its own output
whenever no input cell was left underivable); with an absent cell the
`fillna(0)` cleanup changes qx/lx/dx, and a second run sees different
inputs (see the counterexample). -/
theorem claim_C6 (rows : List Row)
    (h : ∀ r ∈ rows, r.lx ≠ none ∧ r.qx ≠ none ∧ r.dx ≠ none) :
    _add_life_table_functions ((_add_life_table_functions rows).map toRow) =
      _add_life_table_functions rows :=
  derive_idem rows h

/-- C6 witness: idempotence holds concretely for a fully populated row. -/
theorem claim_C6_witness :
    _add_life_table_functions
        ((_add_life_table_functions [(⟨some 0, some 100, some (1/2), some 50⟩ : Row)]).map
          toRow) =
      _add_life_table_functions [(⟨some 0, some 100, some (1/2), some 50⟩ : Row)] :=
  claim_C6 [(⟨some 0, some 100, some (1/2), some 50⟩ : Row)] (by simp)

/-- C8 counterexample: validating a table whose age column is labelled
"age" renames that column of the stored input to "yaş" in place — the
original labels are not preserved. -/
theorem claim_C8_cex :
    (validate_columns_post ⟨["age", "qx"], [[some 0, some (1/100)]]⟩).labels ≠
      ["age", "qx"] := by
  intro h
  have h2 : (validate_columns_post ⟨["age", "qx"], [[some 0, some (1/100)]]⟩).labels =
      ["yaş", "qx"] := rfl
  rw [h2] at h
  injection h with h3
  exact absurd h3 (by decide)

/-- C8 (amended): the normalizer never touches cell values (the row data
of the stored table is unchanged, and row-level mutation happens on a
copy), but it does mutate the stored input's column labels in place: on
success each matched label is renamed to its canonical field name; on
failure the table is left untouched. -/
theorem claim_C8 (t : InputTable) :
    (validate_columns_post t).rows = t.rows ∧
    ((matchColumn t.labels ageSyns = none ∨ matchColumn t.labels qxSyns = none) →
      validate_columns_post t = t) ∧
    (∀ la lq, matchColumn t.labels ageSyns = some la → matchColumn t.labels qxSyns = some lq →
      (validate_columns_post t).labels = t.labels.map (renameLabel t.labels)) := by
  unfold validate_columns_post
  rcases hA : matchColumn t.labels ageSyns with _ | la
  · exact ⟨rfl, fun _ => rfl, fun la' lq' hla _ => by cases hla⟩
  · rcases hQ : matchColumn t.labels qxSyns with _ | lq
    · exact ⟨rfl, fun _ => rfl, fun la' lq' _ hlq => by cases hlq⟩
    · refine ⟨rfl, fun hor => ?_, fun la' lq' _ _ => rfl⟩
      rcases hor with h1 | h1 <;> cases h1

/-- C8 witness: with labels ["x", "qx"] validation succeeds, the rows are
untouched and the labels become the canonical renames. -/
theorem claim_C8_witness :
    (validate_columns_post ⟨["x", "qx"], [[some 7, some (1/4)]]⟩).rows =
        [[some 7, some (1/4)]] ∧
    (validate_columns_post ⟨["x", "qx"], [[some 7, some (1/4)]]⟩).labels =
        ["x", "qx"].map (renameLabel ["x", "qx"]) :=
  ⟨(claim_C8 ⟨["x", "qx"], [[some 7, some (1/4)]]⟩).1,
   (claim_C8 ⟨["x", "qx"], [[some 7, some (1/4)]]⟩).2.2 "x" "qx" rfl rfl⟩

/-- C4 counterexample: supplied lx values are never overwritten, so an
accepted input with increasing lx (100 then 200) produces an output whose
lx increases with age. -/
theorem claim_C4_cex :
    ∃ out a b, create_mortality_table 100000
        ⟨["age", "qx", "lx"], [[some 0, some 0, some 100], [some 1, some 0, some 200]]⟩ =
          .ok out ∧
      out[0]? = some a ∧ out[1]? = some b ∧ a.lx < b.lx := by
  have h : normalizeRows
      ⟨["age", "qx", "lx"], [[some 0, some 0, some 100], [some 1, some 0, some 200]]⟩ =
      .ok [⟨some 0, some 100, some 0, none⟩, ⟨some 1, some 200, some 0, none⟩] := rfl
  refine ⟨[⟨0, 100, 0, 0, 1, 100, 300, 3⟩, ⟨1, 200, 0, 0, 1, 200, 200, 1⟩],
    ⟨0, 100, 0, 0, 1, 100, 300, 3⟩, ⟨1, 200, 0, 0, 1, 200, 200, 1⟩, ?_, rfl, rfl, by norm_num⟩
  unfold create_mortality_table
  rw [h]
  have hsort : sortByAge [⟨some 0, some 100, some 0, none⟩, ⟨some 1, some 200, some 0, none⟩] =
      [⟨some 0, some 100, some 0, none⟩, ⟨some 1, some 200, some 0, none⟩] := by
    norm_num [sortByAge, insertByAge, ageLe]
  have hcomp : _complete_calculations 100000
      [⟨some 0, some 100, some 0, none⟩, ⟨some 1, some 200, some 0, none⟩] =
      [⟨some 0, some 100, some 0, some 0⟩, ⟨some 1, some 200, some 0, some 0⟩] := by
    norm_num [_complete_calculations, pyRange, rangeGo, pass1Step, pass2Step, pyGet,
      step1Row, stepA, stepB, stepC, step2Row, List.set, Option.some_ne_none, reduceCtorEq]
  have hder : _add_life_table_functions
      [⟨some 0, some 100, some 0, some 0⟩, ⟨some 1, some 200, some 0, some 0⟩] =
      [⟨0, 100, 0, 0, 1, 100, 300, 3⟩, ⟨1, 200, 0, 0, 1, 200, 200, 1⟩] := by
    norm_num [_add_life_table_functions, TxList, cumsumSkip, LxOf, deriveRow]
  simp only [Except.map, hsort, hcomp, hder]

/-- C4 (amended): lx is non-increasing as age increases for every accepted
input in which no lx is supplied, every supplied qx and dx is
non-negative, and the radix is non-negative. (A supplied increasing lx, a
negative supplied dx, or a negative supplied qx can all produce an
increasing lx column, since supplied cells are never overwritten.) -/
theorem claim_C4 (t : InputTable) (radix : ℚ) (rows : List Row) (out : List OutRow)
    (hn : normalizeRows t = .ok rows)
    (hc : create_mortality_table radix t = .ok out)
    (hradix : 0 ≤ radix)
    (hlx : ∀ r ∈ rows, r.lx = none)
    (hq : ∀ r ∈ rows, ∀ q, r.qx = some q → 0 ≤ q)
    (hd : ∀ r ∈ rows, ∀ d, r.dx = some d → 0 ≤ d) :
    ∀ (i : Nat) (a b : OutRow), out[i]? = some a → out[i + 1]? = some b → b.lx ≤ a.lx := by
  rw [create_ok_shape t radix rows out hn hc]
  have hmem : ∀ r ∈ sortByAge rows, r ∈ rows :=
    fun r hr => (sortByAge_perm rows).mem_iff.mp hr
  have hlx' : ∀ r ∈ sortByAge rows, r.lx = none := fun r hr => hlx r (hmem r hr)
  have hnn' : ∀ r ∈ sortByAge rows, nnRow r := by
    intro r hr
    refine ⟨?_, hq r (hmem r hr), hd r (hmem r hr)⟩
    intro v hv
    rw [hlx' r hr] at hv
    cases hv
  apply derive_lx_pairwise
  rw [complete_eq_spec]
  exact completerSpec_chain radix (sortByAge rows) hradix hlx' hnn'

/-- C4 witness: Scenario A's table satisfies the amended hypotheses and
indeed yields a non-increasing lx column (100000 then 99000). -/
theorem claim_C4_witness :
    ∃ out a b, create_mortality_table 100000
        ⟨["age", "qx"], [[some 0, some (1/100)], [some 1, some (2/100)]]⟩ = .ok out ∧
      out[0]? = some a ∧ out[1]? = some b ∧ b.lx ≤ a.lx := by
  have hn : normalizeRows ⟨["age", "qx"], [[some 0, some (1/100)], [some 1, some (2/100)]]⟩ =
      .ok [⟨some 0, none, some (1/100), none⟩, ⟨some 1, none, some (2/100), none⟩] := rfl
  have hc : create_mortality_table 100000
      ⟨["age", "qx"], [[some 0, some (1/100)], [some 1, some (2/100)]]⟩ =
      .ok [⟨0, 100000, 1/100, 1000, 99/100, 99500, 197510, 19751/10000⟩,
           ⟨1, 99000, 1/50, 1980, 49/50, 98010, 98010, 99/100⟩] := by
    unfold create_mortality_table
    rw [hn]
    norm_num [sortByAge, insertByAge, ageLe,
      _complete_calculations, pyRange, rangeGo, pass1Step, pass2Step, pyGet,
      step1Row, stepA, stepB, stepC, step2Row, List.set,
      _add_life_table_functions, TxList, cumsumSkip, LxOf, deriveRow, Except.map]
  refine ⟨_, _, _, hc, rfl, rfl, ?_⟩
  refine claim_C4 _ 100000 _ _ hn hc (by norm_num) ?_ ?_ ?_ 0 _ _ rfl rfl
  · intro r hr
    simp only [List.mem_cons, List.not_mem_nil, or_false] at hr
    rcases hr with rfl | rfl <;> rfl
  · intro r hr
    simp only [List.mem_cons, List.not_mem_nil, or_false] at hr
    rcases hr with rfl | rfl <;> intro q hq <;> injection hq with hq2 <;> rw [← hq2] <;> norm_num
  · intro r hr
    simp only [List.mem_cons, List.not_mem_nil, or_false] at hr
    rcases hr with rfl | rfl <;> intro d hd <;> cases hd

/-- C5 counterexample: a supplied qx of 5 is accepted and never clamped;
the output row has qx = 5 > 1 and px = -4 < 0. -/
theorem claim_C5_cex :
    ∃ out o, create_mortality_table 100000 ⟨["age", "qx"], [[some 0, some 5]]⟩ = .ok out ∧
      o ∈ out ∧ 1 < o.qx ∧ o.px < 0 := by
  have h : normalizeRows ⟨["age", "qx"], [[some 0, some 5]]⟩ =
      .ok [⟨some 0, none, some 5, none⟩] := rfl
  refine ⟨[⟨0, 100000, 5, 500000, -4, -150000, -150000, -(3/2)⟩],
    ⟨0, 100000, 5, 500000, -4, -150000, -150000, -(3/2)⟩, ?_, by simp, by norm_num, by norm_num⟩
  unfold create_mortality_table
  rw [h]
  norm_num [sortByAge, insertByAge, ageLe,
    _complete_calculations, pyRange, rangeGo, pass1Step, pass2Step, pyGet,
    step1Row, stepA, stepB, stepC, step2Row, List.set,
    _add_life_table_functions, TxList, cumsumSkip, LxOf, deriveRow, Except.map]

/-- C5 (amended): when every supplied qx lies in [0,1] and every supplied
dx is non-negative, every output row satisfies 0 ≤ qx ≤ 1 and 0 ≤ px ≤ 1,
and px + qx = 1 — except on rows whose qx was underivable, which are
cleaned to px = qx = 0. (A supplied qx outside [0,1] flows through
unclamped, see the counterexample.) -/
theorem claim_C5 (t : InputTable) (radix : ℚ) (rows : List Row) (out : List OutRow)
    (hn : normalizeRows t = .ok rows)
    (hc : create_mortality_table radix t = .ok out)
    (hq : ∀ r ∈ rows, ∀ q, r.qx = some q → 0 ≤ q ∧ q ≤ 1)
    (hd : ∀ r ∈ rows, ∀ d, r.dx = some d → 0 ≤ d) :
    ∀ o ∈ out, (0 ≤ o.qx ∧ o.qx ≤ 1 ∧ 0 ≤ o.px ∧ o.px ≤ 1) ∧
      (o.px + o.qx = 1 ∨ (o.px = 0 ∧ o.qx = 0)) := by
  rw [create_ok_shape t radix rows out hn hc]
  intro o ho
  obtain ⟨i, hi⟩ := List.mem_iff_getElem?.mp ho
  obtain ⟨r, tx, hr, _, rfl⟩ := derive_nth _ i o hi
  have hrmem : r ∈ _complete_calculations radix (sortByAge rows) :=
    List.mem_iff_getElem?.mpr ⟨i, hr⟩
  have hmem : ∀ x ∈ sortByAge rows, x ∈ rows :=
    fun x hx => (sortByAge_perm rows).mem_iff.mp hx
  have hbounds := complete_qx_bounds radix (sortByAge rows)
    (fun x hx => hq x (hmem x hx)) (fun x hx => hd x (hmem x hx)) r hrmem
  rcases hrq : r.qx with _ | q
  · rw [deriveRow_qx, deriveRow_px, hrq]
    norm_num
  · have hb := hbounds q hrq
    rw [deriveRow_qx, deriveRow_px, hrq]
    simp only [Option.getD_some, Option.map_some', Option.map_some]
    exact ⟨⟨hb.1, hb.2, by linarith [hb.2], by linarith [hb.1]⟩, Or.inl (by ring)⟩

/-- C5 witness: with qx = 1/100 supplied, the output row has qx and px in
bounds and px + qx = 1. -/
theorem claim_C5_witness :
    ∃ out o, create_mortality_table 100000 ⟨["age", "qx"], [[some 0, some (1/100)]]⟩ =
        .ok out ∧ o ∈ out ∧ 0 ≤ o.qx ∧ o.qx ≤ 1 ∧ 0 ≤ o.px ∧ o.px ≤ 1 ∧ o.px + o.qx = 1 := by
  have hn : normalizeRows ⟨["age", "qx"], [[some 0, some (1/100)]]⟩ =
      .ok [⟨some 0, none, some (1/100), none⟩] := rfl
  have hc : create_mortality_table 100000 ⟨["age", "qx"], [[some 0, some (1/100)]]⟩ =
      .ok [⟨0, 100000, 1/100, 1000, 99/100, 99500, 99500, 199/200⟩] := by
    unfold create_mortality_table
    rw [hn]
    norm_num [sortByAge, insertByAge, ageLe,
      _complete_calculations, pyRange, rangeGo, pass1Step, pass2Step, pyGet,
      step1Row, stepA, stepB, stepC, step2Row, List.set,
      _add_life_table_functions, TxList, cumsumSkip, LxOf, deriveRow, Except.map]
  have hmain := claim_C5 _ 100000 _ _ hn hc
    (by
      intro r hr
      simp only [List.mem_cons, List.not_mem_nil, or_false] at hr
      subst hr
      intro q hq
      injection hq with hq2
      rw [← hq2]
      norm_num)
    (by
      intro r hr
      simp only [List.mem_cons, List.not_mem_nil, or_false] at hr
      subst hr
      intro d hd
      cases hd)
    ⟨0, 100000, 1/100, 1000, 99/100, 99500, 99500, 199/200⟩ (by simp)
  refine ⟨_, _, hc, by simp, hmain.1.1, hmain.1.2.1, hmain.1.2.2.1, hmain.1.2.2.2, ?_⟩
  rcases hmain.2 with h1 | h1
  · exact h1
  · norm_num at h1

/-- C10: the pipeline preserves the rows: the output has exactly as many
rows as the input, and (when every normalized row carries an age value)
the multiset of output ages equals the multiset of input ages — rows are
only reordered by the sort, never added or removed. -/
theorem claim_C10 (t : InputTable) (radix : ℚ) (rows : List Row) (out : List OutRow)
    (hn : normalizeRows t = .ok rows)
    (hc : create_mortality_table radix t = .ok out) :
    out.length = t.rows.length ∧
    ((∀ r ∈ rows, r.age ≠ none) →
      (↑(out.map (fun o => (some o.age : Option ℚ))) : Multiset (Option ℚ)) =
        ↑(rows.map Row.age)) := by
  have hshape := create_ok_shape t radix rows out hn hc
  constructor
  · rw [hshape, derive_length, complete_length, sortByAge_length,
      normalize_ok_shape t rows hn, List.length_map]
  · intro hage
    have h5 : out.map (fun o => (some o.age : Option ℚ)) = (sortByAge rows).map Row.age := by
      have h0 : out.map (fun o => (some o.age : Option ℚ)) =
          (out.map OutRow.age).map (fun a => (some a : Option ℚ)) := by
        rw [List.map_map]
        rfl
      have h1 : out.map OutRow.age =
          (_complete_calculations radix (sortByAge rows)).map (fun r => r.age.getD 0) := by
        rw [hshape, derive_map_age]
      have h2 : (_complete_calculations radix (sortByAge rows)).map (fun r => r.age.getD 0) =
          ((sortByAge rows).map Row.age).map (fun a => a.getD 0) := by
        rw [← complete_map_age radix (sortByAge rows), List.map_map]
        rfl
      rw [h0, h1, h2, List.map_map]
      have h4 : ∀ x ∈ (sortByAge rows).map Row.age,
          ((fun a => (some a : Option ℚ)) ∘ fun a => a.getD 0) x = id x := by
        intro x hx
        obtain ⟨r, hr, rfl⟩ := List.mem_map.mp hx
        have hne : r.age ≠ none := hage r ((sortByAge_perm rows).mem_iff.mp hr)
        rcases hra : r.age with _ | v
        · exact absurd hra hne
        · rfl
      rw [List.map_congr_left h4, List.map_id]
    rw [h5]
    exact Multiset.coe_eq_coe.mpr ((sortByAge_perm rows).map Row.age)

/-- C10 witness: a two-row input given in descending age order keeps both
rows and both ages (as a multiset) through the pipeline. -/
theorem claim_C10_witness :
    ∃ out, create_mortality_table 100000
        ⟨["age", "qx"], [[some 1, some 0], [some 0, some 0]]⟩ = .ok out ∧
      out.length = 2 ∧
      (↑(out.map (fun o => (some o.age : Option ℚ))) : Multiset (Option ℚ)) =
        ↑[(some 1 : Option ℚ), some 0] := by
  have hn : normalizeRows ⟨["age", "qx"], [[some 1, some 0], [some 0, some 0]]⟩ =
      .ok [⟨some 1, none, some 0, none⟩, ⟨some 0, none, some 0, none⟩] := rfl
  have hc : create_mortality_table 100000 ⟨["age", "qx"], [[some 1, some 0], [some 0, some 0]]⟩ =
      .ok [⟨0, 100000, 0, 0, 1, 100000, 200000, 2⟩, ⟨1, 100000, 0, 0, 1, 100000, 100000, 1⟩] := by
    unfold create_mortality_table
    rw [hn]
    norm_num [sortByAge, insertByAge, ageLe,
      _complete_calculations, pyRange, rangeGo, pass1Step, pass2Step, pyGet,
      step1Row, stepA, stepB, stepC, step2Row, List.set,
      _add_life_table_functions, TxList, cumsumSkip, LxOf, deriveRow, Except.map]
  have h := claim_C10 _ 100000 _ _ hn hc
  refine ⟨_, hc, h.1, ?_⟩
  have h2 := h.2 (by
    intro r hr
    simp only [List.mem_cons, List.not_mem_nil, or_false] at hr
    rcases hr with rfl | rfl <;> exact (by simp))
  simpa using h2

